import Mathlib

/-!
Verification of the StarJump tower-defense simulation core.

The definitions below are shallow embeddings of the TypeScript sources:
JavaScript `number` values are modelled as rationals (`ℚ`) with `Int.floor`
for `Math.floor`, fallible lookups return `Option`, and the per-frame
imperative update loops become explicit state-passing functions.
-/

namespace StarJump

/-! ## Combat resolver (`CombatSystem`, systems/CombatSystem.ts)

`DamageType` and `calculateDamage` are translated from the `CombatSystem`
class.  The TypeScript method takes exactly four parameters
(`baseDamage`, `damageType`, `defense`, `magicResist`); it has no
penetration parameters. -/

/-- Damage type enum: physical, magical, true damage. -/
inductive DamageType where
  | physical
  | magical
  | trueDamage
deriving DecidableEq, Repr

/-- `CombatSystem.calculateDamage`.  A minimum-damage floor of
`max(1, floor(baseDamage * 0.05))` is computed first; physical damage is
subtractive (`baseDamage - defense`), magical damage multiplies by
`1 - clamp(magicResist, 0, 100)/100`, true damage is unmitigated.  The
result is floored and clamped to at least 1. -/
def calculateDamage (baseDamage : ℚ) (damageType : DamageType)
    (defense : ℚ) (magicResist : ℚ) : ℤ :=
  let minimumDamage : ℤ := max 1 ⌊baseDamage * (5 / 100)⌋
  let finalDamage : ℚ :=
    match damageType with
    | .physical => max (minimumDamage : ℚ) (baseDamage - defense)
    | .magical =>
        let resistReduction : ℚ := min 100 (max 0 magicResist) / 100
        max (minimumDamage : ℚ) (baseDamage * (1 - resistReduction))
    | .trueDamage => baseDamage
  max 1 ⌊finalDamage⌋

/-- The damage formula as the specification states it (§4.3): a resolver
taking physical and magical penetration arguments, where physical damage
subtracts `max(0, defense - physPen)` and magical damage uses
`clamp(magicResist - magicPen, 0, 100)`.  Written from the spec's words
for comparison with `calculateDamage` above. -/
def specResolveDamage (baseDamage : ℚ) (damageType : DamageType)
    (defense magicResist physPen magicPen : ℚ) : ℤ :=
  let minimumDamage : ℤ := ⌊max 1 (baseDamage * (5 / 100))⌋
  let finalDamage : ℚ :=
    match damageType with
    | .physical => max (minimumDamage : ℚ) (baseDamage - max 0 (defense - physPen))
    | .magical =>
        let reduction : ℚ := min 100 (max 0 (magicResist - magicPen)) / 100
        max (minimumDamage : ℚ) (baseDamage * (1 - reduction))
    | .trueDamage => baseDamage
  max 1 ⌊finalDamage⌋

end StarJump

namespace StarJump

/-- C1: the resolver in the code ignores penetration.  At the rain-mortar
call site the game passes `physPen = 15`, but `calculateDamage` has no
penetration parameters, so with `baseDamage = 100`, `defense = 20` the
code yields `100 - 20 = 80`, while the claimed formula
`baseDamage - max(0, defense - physPen)` yields `100 - 5 = 95`. -/
theorem calculateDamage_drops_penetration :
    calculateDamage 100 .physical 20 0 = 80 ∧
    specResolveDamage 100 .physical 20 0 15 0 = 95 ∧
    calculateDamage 100 .physical 20 0 ≠ specResolveDamage 100 .physical 20 0 15 0 := by
  refine ⟨?_, ?_, ?_⟩ <;> norm_num [calculateDamage, specResolveDamage]

/-- C2 counterexample: with a negative defense value the resolved physical
damage exceeds `baseDamage` (`10 - (-1) = 11 > 10`), so the bound does not
hold for *all* `(baseDamage, defense, magicResist)`. -/
theorem calculateDamage_exceeds_base_on_negative_defense :
    calculateDamage 10 .physical (-1) 0 = 11 ∧
    ¬ ((calculateDamage 10 .physical (-1) 0 : ℚ) ≤ 10) := by
  constructor
  · norm_num [calculateDamage]
  · norm_num [calculateDamage]

/-- C2 (amended): for `baseDamage ≥ 1` and `defense ≥ 0` the resolved
physical and magical damage are each at least 1 and at most `baseDamage`
(for every `magicResist`). -/
theorem calculateDamage_bounds (b d mr : ℚ) (hb : 1 ≤ b) (hd : 0 ≤ d) :
    (1 ≤ calculateDamage b .physical d mr ∧ (calculateDamage b .physical d mr : ℚ) ≤ b) ∧
    (1 ≤ calculateDamage b .magical d mr ∧ (calculateDamage b .magical d mr : ℚ) ≤ b) := by
  have hb0 : (0 : ℚ) ≤ b := le_trans zero_le_one hb
  have hmin : ((max 1 ⌊b * (5 / 100)⌋ : ℤ) : ℚ) ≤ b := by
    push_cast
    refine max_le hb ?_
    calc ((⌊b * (5 / 100)⌋ : ℤ) : ℚ) ≤ b * (5 / 100) := Int.floor_le _
    _ ≤ b * 1 := by nlinarith
    _ = b := mul_one b
  have hfloor_b : (1 : ℤ) ≤ ⌊b⌋ := by
    rw [Int.le_floor]; exact_mod_cast hb
  constructor
  · constructor
    · exact le_max_left _ _
    · show ((max 1 ⌊max ((max 1 ⌊b * (5 / 100)⌋ : ℤ) : ℚ) (b - d)⌋ : ℤ) : ℚ) ≤ b
      have h1 : ⌊max ((max 1 ⌊b * (5 / 100)⌋ : ℤ) : ℚ) (b - d)⌋ ≤ ⌊b⌋ :=
        Int.floor_le_floor (max_le hmin (by linarith))
      have h2 : max 1 ⌊max ((max 1 ⌊b * (5 / 100)⌋ : ℤ) : ℚ) (b - d)⌋ ≤ ⌊b⌋ :=
        max_le hfloor_b h1
      calc ((max 1 ⌊max ((max 1 ⌊b * (5 / 100)⌋ : ℤ) : ℚ) (b - d)⌋ : ℤ) : ℚ)
          ≤ ((⌊b⌋ : ℤ) : ℚ) := by exact_mod_cast h2
      _ ≤ b := Int.floor_le b
  · constructor
    · exact le_max_left _ _
    · show ((max 1 ⌊max ((max 1 ⌊b * (5 / 100)⌋ : ℤ) : ℚ)
          (b * (1 - min 100 (max 0 mr) / 100))⌋ : ℤ) : ℚ) ≤ b
      have hr0 : (0 : ℚ) ≤ min 100 (max 0 mr) / 100 := by positivity
      have hmul : b * (1 - min 100 (max 0 mr) / 100) ≤ b := by nlinarith
      have h1 : ⌊max ((max 1 ⌊b * (5 / 100)⌋ : ℤ) : ℚ)
          (b * (1 - min 100 (max 0 mr) / 100))⌋ ≤ ⌊b⌋ :=
        Int.floor_le_floor (max_le hmin hmul)
      have h2 : max 1 ⌊max ((max 1 ⌊b * (5 / 100)⌋ : ℤ) : ℚ)
          (b * (1 - min 100 (max 0 mr) / 100))⌋ ≤ ⌊b⌋ :=
        max_le hfloor_b h1
      calc ((max 1 ⌊max ((max 1 ⌊b * (5 / 100)⌋ : ℤ) : ℚ)
          (b * (1 - min 100 (max 0 mr) / 100))⌋ : ℤ) : ℚ)
          ≤ ((⌊b⌋ : ℤ) : ℚ) := by exact_mod_cast h2
      _ ≤ b := Int.floor_le b

/-- C2 witness: the amended bounds instantiated at the spec's own example
(magical, `baseDamage = 50`, `magicResist = 10`). -/
theorem calculateDamage_bounds_witness :
    (1 : ℚ) ≤ 50 ∧ (0 : ℚ) ≤ 0 ∧
    ((1 ≤ calculateDamage 50 .physical 0 10 ∧ (calculateDamage 50 .physical 0 10 : ℚ) ≤ 50) ∧
     (1 ≤ calculateDamage 50 .magical 0 10 ∧ (calculateDamage 50 .magical 0 10 : ℚ) ≤ 50)) :=
  ⟨by norm_num, by norm_num, calculateDamage_bounds 50 0 10 (by norm_num) (by norm_num)⟩

/-! ## Entity health (`Tower.takeDamage` / `Enemy.takeDamage`)

Both classes implement the same body: subtract the damage from `health`,
then if `health ≤ 0` reset it to `0` and clear the alive flag. -/

/-- The `{health, alive}` fragment of a tower's or enemy's state that
`takeDamage` touches. -/
structure CombatantState where
  health : ℚ
  alive : Bool
deriving DecidableEq, Repr

/-- `takeDamage(damage)`: `health -= damage`, then clamp at zero and mark
dead when `health ≤ 0`. -/
def takeDamage (s : CombatantState) (damage : ℚ) : CombatantState :=
  let h := s.health - damage
  if h ≤ 0 then { health := 0, alive := false }
  else { health := h, alive := s.alive }

/-- Invariant tying the alive flag to the health value. -/
def CombatantInv (s : CombatantState) : Prop :=
  0 ≤ s.health ∧ (s.alive = true ↔ 0 < s.health)

lemma takeDamage_inv (s : CombatantState) (d : ℚ) (hd : 0 ≤ d) (h : CombatantInv s) :
    CombatantInv (takeDamage s d) := by
  obtain ⟨h1, h2⟩ := h
  unfold takeDamage CombatantInv
  by_cases hc : s.health - d ≤ 0
  · simp [hc]
  · simp only [hc, if_false]
    have hpos : (0 : ℚ) < s.health - d := lt_of_not_le hc
    have hsh : (0 : ℚ) < s.health := by linarith
    constructor
    · simp; linarith
    · simp [h2.mpr hsh, hpos]

lemma foldl_takeDamage_inv (ds : List ℚ) (s : CombatantState)
    (hds : ∀ d ∈ ds, 0 ≤ d) (h : CombatantInv s) :
    CombatantInv (List.foldl takeDamage s ds) := by
  induction ds generalizing s with
  | nil => exact h
  | cons d ds ih =>
    exact ih _ (fun x hx => hds x (List.mem_cons_of_mem d hx))
      (takeDamage_inv s d (hds d (List.mem_cons_self d ds)) h)

/-- C9: starting from a live entity with positive health, any sequence of
`takeDamage` calls leaves health non-negative after every call; a call
whose damage meets or exceeds the remaining health clamps health to
exactly 0; and the alive flag is cleared exactly when health reaches 0. -/
theorem takeDamage_never_negative (s : CombatantState) (ds : List ℚ)
    (hds : ∀ d ∈ ds, 0 ≤ d) (h0 : 0 < s.health) (ha : s.alive = true) :
    (∀ n, 0 ≤ (List.foldl takeDamage s (List.take n ds)).health) ∧
    ((List.foldl takeDamage s ds).alive = true ↔
      0 < (List.foldl takeDamage s ds).health) ∧
    (∀ t : CombatantState, ∀ d : ℚ, t.health ≤ d → (takeDamage t d).health = 0) := by
  have hinv : CombatantInv s := ⟨le_of_lt h0, by simp [ha, h0]⟩
  refine ⟨?_, ?_, ?_⟩
  · intro n
    exact (foldl_takeDamage_inv (List.take n ds) s
      (fun d hd => hds d (List.take_subset n ds hd)) hinv).1
  · exact (foldl_takeDamage_inv ds s hds hinv).2
  · intro t d htd
    unfold takeDamage
    simp [show t.health - d ≤ 0 by linarith]

/-- C9 witness: a tower with 10 health taking hits of 3, 7 and 5. -/
theorem takeDamage_never_negative_witness :
    (∀ d ∈ ([3, 7, 5] : List ℚ), 0 ≤ d) ∧ (0 : ℚ) < 10 ∧
    ((∀ n, 0 ≤ (List.foldl takeDamage ⟨10, true⟩ (List.take n [3, 7, 5])).health) ∧
     ((List.foldl takeDamage ⟨10, true⟩ [3, 7, 5]).alive = true ↔
       0 < (List.foldl takeDamage ⟨10, true⟩ [3, 7, 5]).health) ∧
     (∀ t : CombatantState, ∀ d : ℚ, t.health ≤ d → (takeDamage t d).health = 0)) :=
  ⟨by norm_num, by norm_num,
    takeDamage_never_negative ⟨10, true⟩ [3, 7, 5] (by norm_num) (by norm_num) rfl⟩

/-! ## Map provider and aura ledger (`GameMap`)

The grid is a `width × height` array of tiles; `getTile` returns `null`
out of bounds.  The guard-aura ledger is a string-keyed `Map` with
`get(key) || 0` reads; since deleting a key whose count is `0` does not
change that read, the ledger is modelled as the total function
`guardAura : ℤ × ℤ → ℤ` (the counter type is `ℤ`, as the JS counter is a
plain number that could in principle go negative). -/

/-- Tile type enum: ground, platform, red gate (spawn), blue gate
(objective), obstacle. -/
inductive TileType where
  | ground
  | platform
  | redGate
  | blueGate
  | obstacle
deriving DecidableEq, Repr

/-- A grid tile: coordinates, type, tower-occupancy flag. -/
structure Tile where
  x : ℤ
  y : ℤ
  type : TileType
  hasTower : Bool
deriving DecidableEq, Repr

/-- The `GameMap` state: dimensions, per-cell tile type and occupancy,
and the guard-aura counter ledger. -/
structure GameMap where
  width : ℤ
  height : ℤ
  tileType : ℤ × ℤ → TileType
  towerOn : ℤ × ℤ → Bool
  guardAura : ℤ × ℤ → ℤ

/-- `GameMap.getTile`: `null` out of bounds, otherwise the tile record. -/
def getTile (m : GameMap) (x y : ℤ) : Option Tile :=
  if x < 0 ∨ m.width ≤ x ∨ y < 0 ∨ m.height ≤ y then none
  else some ⟨x, y, m.tileType (x, y), m.towerOn (x, y)⟩

/-- `GameMap.isWalkable`: ground, red-gate and blue-gate tiles are
walkable; platforms, obstacles and out-of-bounds cells are not. -/
def isWalkable (m : GameMap) (x y : ℤ) : Bool :=
  match getTile m x y with
  | none => false
  | some t => t.type == TileType.ground || t.type == TileType.redGate ||
      t.type == TileType.blueGate

/-- `GameMap.setTowerOnTile`: fails (returning `false`, mutating nothing)
out of bounds or on a tile that is neither platform nor ground; otherwise
writes the occupancy flag. -/
def setTowerOnTile (m : GameMap) (x y : ℤ) (hasTower : Bool)
    (isGroundTower : Bool) : GameMap × Bool :=
  match getTile m x y with
  | none => (m, false)
  | some t =>
    if t.type ≠ TileType.platform ∧ t.type ≠ TileType.ground then (m, false)
    else if isGroundTower ∧ t.type ≠ TileType.ground ∧ t.type ≠ TileType.platform then
      (m, false)
    else
      ({ m with towerOn := fun p => if p = (x, y) then hasTower else m.towerOn p }, true)

/-- `GameMap.addGuardAuraToTile`: increment the tile's aura counter. -/
def addGuardAuraToTile (m : GameMap) (x y : ℤ) : GameMap :=
  { m with guardAura := fun p => if p = (x, y) then m.guardAura (x, y) + 1
      else m.guardAura p }

/-- `GameMap.removeGuardAuraFromTile`: decrement the tile's aura counter
only when it is positive (the subsequent key deletion at count `0` does
not change the `get(key) || 0` view). -/
def removeGuardAuraFromTile (m : GameMap) (x y : ℤ) : GameMap :=
  if 0 < m.guardAura (x, y) then
    { m with guardAura := fun p => if p = (x, y) then m.guardAura (x, y) - 1
        else m.guardAura p }
  else m

/-- `GameMap.tileHasGuardAura`: the aura bonus is active when the counter
is positive. -/
def tileHasGuardAura (m : GameMap) (x y : ℤ) : Bool :=
  decide (0 < m.guardAura (x, y))

/-- `GameMap.getTileGuardAuraCount`. -/
def getTileGuardAuraCount (m : GameMap) (x y : ℤ) : ℤ :=
  m.guardAura (x, y)

/-- An aura-ledger call: one `addGuardAuraToTile` or one
`removeGuardAuraFromTile` invocation. -/
inductive AuraOp where
  | add (x y : ℤ)
  | remove (x y : ℤ)

/-- Apply one aura-ledger call. -/
def applyAuraOp (m : GameMap) : AuraOp → GameMap
  | .add x y => addGuardAuraToTile m x y
  | .remove x y => removeGuardAuraFromTile m x y

lemma addGuardAura_at (m : GameMap) (x y : ℤ) (q : ℤ × ℤ) :
    (addGuardAuraToTile m x y).guardAura q =
      m.guardAura q + (if q = (x, y) then 1 else 0) := by
  unfold addGuardAuraToTile
  by_cases h : q = (x, y) <;> simp [h]

lemma removeGuardAura_at (m : GameMap) (x y : ℤ) (q : ℤ × ℤ) :
    (removeGuardAuraFromTile m x y).guardAura q =
      if q = (x, y) ∧ 0 < m.guardAura (x, y) then m.guardAura q - 1
      else m.guardAura q := by
  unfold removeGuardAuraFromTile
  by_cases hpos : 0 < m.guardAura (x, y) <;> by_cases h : q = (x, y) <;>
    simp [hpos, h]

/-- C10: starting from a ledger with no negative counters, any sequence of
add/remove calls (including unmatched removes) keeps every tile's counter
non-negative, and a remove on a tile whose counter is zero leaves the map
unchanged. -/
theorem guardAura_never_negative (m0 : GameMap) (h0 : ∀ p, 0 ≤ m0.guardAura p)
    (ops : List AuraOp) :
    (∀ p, 0 ≤ (List.foldl applyAuraOp m0 ops).guardAura p) ∧
    (∀ m : GameMap, ∀ x y : ℤ, m.guardAura (x, y) = 0 →
      removeGuardAuraFromTile m x y = m) := by
  constructor
  · induction ops generalizing m0 with
    | nil => exact h0
    | cons op ops ih =>
      refine ih _ ?_
      intro p
      match op with
      | .add x y =>
        simp only [applyAuraOp, addGuardAura_at]
        have h1 := h0 p
        have h2 := h0 (x, y)
        by_cases h : p = (x, y) <;> simp [h] <;> omega
      | .remove x y =>
        simp only [applyAuraOp, removeGuardAura_at]
        by_cases h : p = (x, y) ∧ 0 < m0.guardAura (x, y)
        · simp only [h, if_true]
          omega
        · simp only [h, if_false]
          exact h0 p
  · intro m x y hz
    unfold removeGuardAuraFromTile
    simp [hz]

/-- C10 witness: the all-zero ledger on a 5×5 ground map, with an
unmatched remove, an add, and two removes on the same tile. -/
theorem guardAura_never_negative_witness :
    (∀ p : ℤ × ℤ, 0 ≤ (GameMap.mk 5 5 (fun _ => TileType.ground)
        (fun _ => false) (fun _ => 0)).guardAura p) ∧
    ((∀ p, 0 ≤ (List.foldl applyAuraOp
        (GameMap.mk 5 5 (fun _ => TileType.ground) (fun _ => false) (fun _ => 0))
        [AuraOp.remove 1 1, AuraOp.add 0 0, AuraOp.remove 0 0,
          AuraOp.remove 0 0]).guardAura p) ∧
     (∀ m : GameMap, ∀ x y : ℤ, m.guardAura (x, y) = 0 →
        removeGuardAuraFromTile m x y = m)) :=
  ⟨fun _ => le_refl 0,
    guardAura_never_negative _ (fun _ => le_refl 0)
      [AuraOp.remove 1 1, AuraOp.add 0 0, AuraOp.remove 0 0, AuraOp.remove 0 0]⟩

/-! ## Guard-tower aura propagation (`GuardTower.getAuraAffectedTiles`,
`onGuardTowerPlaced` / `onGuardTowerRemoved`)

A guard tower affects the four orthogonal neighbors of its own tile.  On
placement each affected tile's counter is incremented, on removal each is
decremented.  (The shield *visual* effect bookkeeping in the same handlers
is rendering-only and out of scope.) -/

/-- `GuardTower.getAuraAffectedTiles`: up, down, left, right of the
tower's tile. -/
def getAuraAffectedTiles (p : ℤ × ℤ) : List (ℤ × ℤ) :=
  [(p.1, p.2 - 1), (p.1, p.2 + 1), (p.1 - 1, p.2), (p.1 + 1, p.2)]

/-- `onGuardTowerPlaced`: increment the aura counter of every affected
tile. -/
def onGuardTowerPlaced (m : GameMap) (p : ℤ × ℤ) : GameMap :=
  (getAuraAffectedTiles p).foldl (fun mm q => addGuardAuraToTile mm q.1 q.2) m

/-- `onGuardTowerRemoved`: decrement the aura counter of every affected
tile. -/
def onGuardTowerRemoved (m : GameMap) (p : ℤ × ℤ) : GameMap :=
  (getAuraAffectedTiles p).foldl (fun mm q => removeGuardAuraFromTile mm q.1 q.2) m

lemma foldl_addGuardAura_at (L : List (ℤ × ℤ)) (m : GameMap) (q : ℤ × ℤ) :
    (L.foldl (fun mm r => addGuardAuraToTile mm r.1 r.2) m).guardAura q =
      m.guardAura q + L.count q := by
  induction L generalizing m with
  | nil => simp
  | cons a L ih =>
    simp only [List.foldl_cons, ih, addGuardAura_at, List.count_cons]
    have ha : ((a.1, a.2) : ℤ × ℤ) = a := rfl
    rw [ha]
    by_cases h : q = a
    · simp [h]
      omega
    · simp [h, beq_iff_eq, Ne.symm h]

lemma foldl_removeGuardAura_at (L : List (ℤ × ℤ)) (m : GameMap) (q : ℤ × ℤ)
    (h : (L.count q : ℤ) ≤ m.guardAura q) :
    (L.foldl (fun mm r => removeGuardAuraFromTile mm r.1 r.2) m).guardAura q =
      m.guardAura q - L.count q := by
  induction L generalizing m with
  | nil => simp
  | cons a L ih =>
    have ha : ((a.1, a.2) : ℤ × ℤ) = a := rfl
    simp only [List.foldl_cons]
    rw [List.count_cons] at h ⊢
    by_cases hq : q = a
    · subst hq
      simp only [beq_iff_eq, if_pos rfl] at h ⊢
      have hcnt : (1 : ℤ) ≤ m.guardAura q := by
        push_cast at h
        omega
      have hrem : (removeGuardAuraFromTile m q.1 q.2).guardAura q =
          m.guardAura q - 1 := by
        rw [removeGuardAura_at, ha]
        simp [show (0:ℤ) < m.guardAura q by omega]
      rw [ih _ (by rw [hrem]; push_cast at h ⊢; omega), hrem]
      push_cast
      omega
    · have hrem : (removeGuardAuraFromTile m a.1 a.2).guardAura q = m.guardAura q := by
        rw [removeGuardAura_at, ha]
        simp [hq]
      simp only [beq_iff_eq, if_neg (Ne.symm hq)] at h ⊢
      rw [ih _ (by rw [hrem]; simpa using h), hrem]
      simp

lemma onGuardTowerPlaced_at (m : GameMap) (p q : ℤ × ℤ) :
    (onGuardTowerPlaced m p).guardAura q =
      m.guardAura q + (getAuraAffectedTiles p).count q :=
  foldl_addGuardAura_at _ _ _

lemma onGuardTowerRemoved_at (m : GameMap) (p q : ℤ × ℤ)
    (h : ((getAuraAffectedTiles p).count q : ℤ) ≤ m.guardAura q) :
    (onGuardTowerRemoved m p).guardAura q =
      m.guardAura q - (getAuraAffectedTiles p).count q :=
  foldl_removeGuardAura_at _ _ _ h

lemma getAuraAffectedTiles_count (p q : ℤ × ℤ) (h : q ∈ getAuraAffectedTiles p) :
    (getAuraAffectedTiles p).count q = 1 := by
  simp only [getAuraAffectedTiles, List.mem_cons, List.not_mem_nil, or_false] at h
  rcases h with h | h | h | h <;> subst h <;>
    · rw [getAuraAffectedTiles]
      repeat rw [List.count_cons]
      rw [List.count_nil]
      simp [beq_iff_eq, Prod.ext_iff]
      omega

/-- C5: two guard towers whose affected-tile sets share the tile `q` drive
`q`'s counter to 2; removing one tower leaves the counter at 1 with the
bonus still active; removing the second brings it to exactly 0 with the
bonus inactive. -/
theorem aura_two_overlapping_towers (m : GameMap) (p1 p2 q : ℤ × ℤ)
    (h1 : q ∈ getAuraAffectedTiles p1) (h2 : q ∈ getAuraAffectedTiles p2)
    (hm : m.guardAura q = 0) :
    (onGuardTowerPlaced (onGuardTowerPlaced m p1) p2).guardAura q = 2 ∧
    ((onGuardTowerRemoved (onGuardTowerPlaced (onGuardTowerPlaced m p1) p2)
        p1).guardAura q = 1 ∧
      tileHasGuardAura (onGuardTowerRemoved
        (onGuardTowerPlaced (onGuardTowerPlaced m p1) p2) p1) q.1 q.2 = true) ∧
    ((onGuardTowerRemoved (onGuardTowerRemoved
        (onGuardTowerPlaced (onGuardTowerPlaced m p1) p2) p1) p2).guardAura q = 0 ∧
      tileHasGuardAura (onGuardTowerRemoved (onGuardTowerRemoved
        (onGuardTowerPlaced (onGuardTowerPlaced m p1) p2) p1) p2) q.1 q.2 = false) := by
  have hc1 := getAuraAffectedTiles_count p1 q h1
  have hc2 := getAuraAffectedTiles_count p2 q h2
  have hq : ((q.1, q.2) : ℤ × ℤ) = q := rfl
  have e2 : (onGuardTowerPlaced (onGuardTowerPlaced m p1) p2).guardAura q = 2 := by
    rw [onGuardTowerPlaced_at, onGuardTowerPlaced_at, hm, hc1, hc2]
    norm_num
  have e1 : (onGuardTowerRemoved (onGuardTowerPlaced (onGuardTowerPlaced m p1) p2)
      p1).guardAura q = 1 := by
    rw [onGuardTowerRemoved_at _ _ _ (by rw [e2, hc1]; norm_num), e2, hc1]
    norm_num
  have e0 : (onGuardTowerRemoved (onGuardTowerRemoved
      (onGuardTowerPlaced (onGuardTowerPlaced m p1) p2) p1) p2).guardAura q = 0 := by
    rw [onGuardTowerRemoved_at _ _ _ (by rw [e1, hc2]; norm_num), e1, hc2]
    norm_num
  refine ⟨e2, ⟨e1, ?_⟩, ⟨e0, ?_⟩⟩
  · unfold tileHasGuardAura
    rw [hq, e1]
    decide
  · unfold tileHasGuardAura
    rw [hq, e0]
    decide

/-- C5 witness: towers at (1,1) and (3,1) share the affected tile (2,1)
on an all-zero ledger. -/
theorem aura_two_overlapping_towers_witness :
    ((2 : ℤ), (1 : ℤ)) ∈ getAuraAffectedTiles (1, 1) ∧
    ((2 : ℤ), (1 : ℤ)) ∈ getAuraAffectedTiles (3, 1) ∧
    ((GameMap.mk 7 7 (fun _ => TileType.ground) (fun _ => false)
        (fun _ => 0)).guardAura (2, 1) = 0) ∧
    ((onGuardTowerPlaced (onGuardTowerPlaced (GameMap.mk 7 7
        (fun _ => TileType.ground) (fun _ => false) (fun _ => 0)) (1, 1))
        (3, 1)).guardAura (2, 1) = 2 ∧
      ((onGuardTowerRemoved (onGuardTowerPlaced (onGuardTowerPlaced (GameMap.mk 7 7
          (fun _ => TileType.ground) (fun _ => false) (fun _ => 0)) (1, 1)) (3, 1))
          (1, 1)).guardAura (2, 1) = 1 ∧
        tileHasGuardAura (onGuardTowerRemoved (onGuardTowerPlaced (onGuardTowerPlaced
          (GameMap.mk 7 7 (fun _ => TileType.ground) (fun _ => false) (fun _ => 0))
          (1, 1)) (3, 1)) (1, 1)) 2 1 = true) ∧
      ((onGuardTowerRemoved (onGuardTowerRemoved (onGuardTowerPlaced
          (onGuardTowerPlaced (GameMap.mk 7 7 (fun _ => TileType.ground)
          (fun _ => false) (fun _ => 0)) (1, 1)) (3, 1)) (1, 1)) (3, 1)).guardAura
          (2, 1) = 0 ∧
        tileHasGuardAura (onGuardTowerRemoved (onGuardTowerRemoved
          (onGuardTowerPlaced (onGuardTowerPlaced (GameMap.mk 7 7
          (fun _ => TileType.ground) (fun _ => false) (fun _ => 0)) (1, 1)) (3, 1))
          (1, 1)) (3, 1)) 2 1 = false)) :=
  ⟨by decide, by decide, rfl,
    aura_two_overlapping_towers _ (1, 1) (3, 1) (2, 1) (by decide) (by decide) rfl⟩

/-! ## Tower removal (`removeTower` in the game orchestrator)

`removeTower(tower)` first looks the tower up in the tower list and
returns immediately (mutating nothing) when `indexOf` yields `-1`;
otherwise it clears the map occupancy, runs the guard-aura removal when
the tower is a guard tower, and splices the tower out of the list.  Gold
is never touched (removal refunds nothing).  Health-bar/visual teardown
and panel hiding are rendering-only and out of scope. -/

/-- The tower identity data `removeTower` consults: id, tile position,
and whether the archetype grants the guard aura. -/
structure Tower where
  id : ℕ
  tilePos : ℤ × ℤ
  isGuard : Bool
deriving DecidableEq, Repr

/-- The orchestrator state touched by `removeTower`: the tower list, the
map (occupancy and aura ledger) and the gold counter. -/
structure GameState where
  towers : List Tower
  map : GameMap
  gold : ℤ

/-- `removeTower`: no-op when the tower is not in the list; otherwise
clear occupancy, release the guard aura when applicable, and remove the
tower from the list. -/
def removeTower (s : GameState) (t : Tower) : GameState :=
  if t ∈ s.towers then
    let m1 := (setTowerOnTile s.map t.tilePos.1 t.tilePos.2 false false).1
    let m2 := if t.isGuard then onGuardTowerRemoved m1 t.tilePos else m1
    { towers := s.towers.erase t, map := m2, gold := s.gold }
  else s

/-- C8: removing a tower that is no longer in the tower list is a no-op
(no aura decrement, no occupancy/gold/tower-list change), so calling
`removeTower` a second time on a tower that appeared at most once leaves
the state exactly as after the first call. -/
theorem removeTower_idempotent (s : GameState) (t : Tower)
    (h : s.towers.count t ≤ 1) :
    removeTower (removeTower s t) t = removeTower s t ∧
    (∀ s' : GameState, ∀ t' : Tower, t' ∉ s'.towers → removeTower s' t' = s') := by
  have noop : ∀ s' : GameState, ∀ t' : Tower, t' ∉ s'.towers →
      removeTower s' t' = s' := by
    intro s' t' ht'
    unfold removeTower
    simp [ht']
  refine ⟨?_, noop⟩
  by_cases ht : t ∈ s.towers
  · have h1 : s.towers.count t = 1 := by
      have := List.count_pos_iff.mpr ht
      omega
    have hgone : t ∉ (removeTower s t).towers := by
      unfold removeTower
      simp only [ht, if_true]
      rw [← List.count_pos_iff]
      rw [List.count_erase_self, h1]
      simp
    exact noop _ _ hgone
  · rw [noop s t ht]
    exact noop s t ht

/-- C8 witness: a single guard tower at (2,2); the second removal call is
a no-op. -/
theorem removeTower_idempotent_witness :
    (GameState.mk [Tower.mk 7 (2, 2) true]
        (GameMap.mk 5 5 (fun _ => TileType.ground) (fun _ => false) (fun _ => 0))
        100).towers.count (Tower.mk 7 (2, 2) true) ≤ 1 ∧
    (removeTower (removeTower (GameState.mk [Tower.mk 7 (2, 2) true]
        (GameMap.mk 5 5 (fun _ => TileType.ground) (fun _ => false) (fun _ => 0))
        100) (Tower.mk 7 (2, 2) true)) (Tower.mk 7 (2, 2) true) =
      removeTower (GameState.mk [Tower.mk 7 (2, 2) true]
        (GameMap.mk 5 5 (fun _ => TileType.ground) (fun _ => false) (fun _ => 0))
        100) (Tower.mk 7 (2, 2) true) ∧
     (∀ s' : GameState, ∀ t' : Tower, t' ∉ s'.towers → removeTower s' t' = s')) :=
  ⟨by decide,
    removeTower_idempotent (GameState.mk [Tower.mk 7 (2, 2) true]
      (GameMap.mk 5 5 (fun _ => TileType.ground) (fun _ => false) (fun _ => 0))
      100) (Tower.mk 7 (2, 2) true) (by decide)⟩

/-! ## Wave scheduler (`WaveSystem`, systems/WaveSystem.ts)

`WaveSystem.update()` computes `elapsed = Date.now() - waveStartTime` and
releases, in list order, every not-yet-spawned entry whose
`prepareTime + delay` has elapsed, stopping at the first entry that is
not yet due.  The model below passes the elapsed time in explicitly and
returns the configs spawned by one call. -/

/-- One enemy spawn entry of a wave: archetype tag, delay from wave start
(ms), spawn-gate index (-1 = random). -/
structure EnemySpawnConfig where
  type : ℕ
  delay : ℕ
  gateIndex : ℤ
deriving DecidableEq, Repr

/-- A wave: number, ordered spawn entries, pre-wave preparation time. -/
structure WaveConfig where
  waveNumber : ℕ
  enemies : List EnemySpawnConfig
  prepareTime : ℕ
deriving DecidableEq, Repr

/-- The runtime progress of the current wave tracked by `WaveSystem`
(after `startNextWave`: `spawnedCount = 0`, `allEnemiesSpawned = false`,
`waveInProgress = true`). -/
structure WaveRunState where
  spawnedCount : ℕ
  allEnemiesSpawned : Bool
  waveInProgress : Bool
deriving DecidableEq, Repr

/-- The spawn loop of `WaveSystem.update`: walk the not-yet-spawned
entries in order, releasing each one whose `prepareTime + delay ≤ elapsed`
and breaking at the first that is not due. -/
def readySpawns (prepareTime : ℕ) (elapsed : ℤ) : List EnemySpawnConfig →
    List EnemySpawnConfig
  | [] => []
  | c :: rest =>
    if (prepareTime : ℤ) + c.delay ≤ elapsed then
      c :: readySpawns prepareTime elapsed rest
    else []

/-- One `WaveSystem.update()` call at a given elapsed time: returns the
new runtime state and the spawn entries released (in order) by this
call.  Does nothing when no wave is in progress. -/
def waveUpdate (wave : WaveConfig) (st : WaveRunState) (elapsed : ℤ) :
    WaveRunState × List EnemySpawnConfig :=
  if st.waveInProgress = false then (st, [])
  else
    let fired := readySpawns wave.prepareTime elapsed (wave.enemies.drop st.spawnedCount)
    let newCount := st.spawnedCount + fired.length
    let allSp := if wave.enemies.length ≤ newCount ∧ st.allEnemiesSpawned = false
      then true else st.allEnemiesSpawned
    (⟨newCount, allSp, st.waveInProgress⟩, fired)

/-- Run `WaveSystem.update` at each elapsed time of the given schedule,
collecting `(spawn entry, elapsed time at which its callback fired)`. -/
def waveRun (wave : WaveConfig) (st : WaveRunState) :
    List ℤ → List (EnemySpawnConfig × ℤ)
  | [] => []
  | e :: es =>
    let p := waveUpdate wave st e
    p.2.map (fun c => (c, e)) ++ waveRun wave p.1 es

lemma readySpawns_sound (prepareTime : ℕ) (elapsed : ℤ)
    (L : List EnemySpawnConfig) (c : EnemySpawnConfig)
    (h : c ∈ readySpawns prepareTime elapsed L) :
    (prepareTime : ℤ) + c.delay ≤ elapsed := by
  induction L with
  | nil => simp [readySpawns] at h
  | cons a L ih =>
    rw [readySpawns] at h
    by_cases hd : (prepareTime : ℤ) + a.delay ≤ elapsed
    · simp only [hd, if_true, List.mem_cons] at h
      rcases h with h | h
      · subst h; exact hd
      · exact ih h
    · simp [hd] at h

/-- C6: spawn callbacks are never fired before `prepareTime + delay` has
elapsed (for every wave, runtime state and update schedule); and for the
wave with `prepareTime = 3000` and delays `[0, 2000, 4000]`, updating at
1000 ms intervals fires the three callbacks exactly at elapsed times
3000, 5000 and 7000 ms. -/
theorem waveScheduler_spawn_times :
    (∀ (wave : WaveConfig) (st : WaveRunState) (ts : List ℤ),
      ∀ ce ∈ waveRun wave st ts, (wave.prepareTime : ℤ) + ce.1.delay ≤ ce.2) ∧
    (waveRun ⟨1, [⟨0, 0, -1⟩, ⟨0, 2000, -1⟩, ⟨0, 4000, -1⟩], 3000⟩ ⟨0, false, true⟩
        [0, 1000, 2000, 3000, 4000, 5000, 6000, 7000] =
      [(⟨0, 0, -1⟩, 3000), (⟨0, 2000, -1⟩, 5000), (⟨0, 4000, -1⟩, 7000)]) := by
  constructor
  · intro wave st ts
    induction ts generalizing st with
    | nil => intro ce h; simp [waveRun] at h
    | cons e es ih =>
      intro ce h
      rw [waveRun] at h
      rcases List.mem_append.mp h with h | h
      · obtain ⟨c, hc, hce⟩ := List.mem_map.mp h
        subst hce
        by_cases hp : st.waveInProgress = false
        · simp [waveUpdate, hp] at hc
        · simp only [waveUpdate, hp, if_false] at hc
          exact readySpawns_sound _ _ _ _ hc
      · exact ih _ _ h
  · decide

/-- C6 witness: the first spawn of the 3000/[0,2000,4000] wave fires at
elapsed time 3000, which satisfies its `prepareTime + delay` bound. -/
theorem waveScheduler_spawn_times_witness :
    ((⟨0, 0, -1⟩, (3000 : ℤ)) : EnemySpawnConfig × ℤ) ∈
      waveRun ⟨1, [⟨0, 0, -1⟩, ⟨0, 2000, -1⟩, ⟨0, 4000, -1⟩], 3000⟩ ⟨0, false, true⟩
        [0, 1000, 2000, 3000, 4000, 5000, 6000, 7000] ∧
    ((3000 : ℤ) + ((0 : ℕ) : ℤ) ≤ 3000) :=
  ⟨by decide,
    waveScheduler_spawn_times.1 ⟨1, [⟨0, 0, -1⟩, ⟨0, 2000, -1⟩, ⟨0, 4000, -1⟩], 3000⟩
      ⟨0, false, true⟩ [0, 1000, 2000, 3000, 4000, 5000, 6000, 7000]
      (⟨0, 0, -1⟩, 3000) (by decide)⟩

/-! ## Charge-then-burst mortar tower (`RainMortarTower`,
flame_thrower/FlameParticle.ts)

The rain-mortar tower runs the animation state machine
Idle -> Preheating -> Firing -> Cooldown.  Preheating advances frames 1-12;
on completing frame 12 it enters Firing, resets `firedCount`/`burstTimer`
and fires the first of `burstCount = 4` shells; in Firing one further
shell is fired each time `burstTimer` accumulates `burstInterval = 0.1` s,
and after the fourth shell the state moves to Cooldown (0.5 s).  If the
in-range enemy list empties, Firing aborts to Cooldown early.  Each shot
picks a random in-range target; the random index and the per-tick enemy
list are passed in explicitly (sprite/texture updates are rendering-only
and not modelled beyond `currentFrame`). -/

/-- Animation states of the rain-mortar tower. -/
inductive RainMortarState where
  | idle
  | preheating
  | firing
  | cooldown
deriving DecidableEq, Repr

/-- The mutable state machine fields of `RainMortarTower`. -/
structure RainMortarSt where
  mortarState : RainMortarState
  currentFrame : ℕ
  frameTimer : ℚ
  firedCount : ℕ
  burstTimer : ℚ
deriving DecidableEq, Repr

/-- `fireOneMortar`: no-op on an empty in-range list, otherwise pick the
target at the supplied random index, emit the fire event, and increment
`firedCount`. -/
def fireOneMortar (st : RainMortarSt) (enemies : List ℕ) (r : ℕ) :
    RainMortarSt × Option ℕ :=
  if enemies.isEmpty then (st, none)
  else ({ st with firedCount := st.firedCount + 1 },
    some (enemies.getD (r % enemies.length) 0))

/-- One `updateAnimationState(deltaTime, hasEnemy)` call, parameterized by
the preheat frame duration `pd`; returns the new state and the fired
target, if a shell was fired this tick. -/
def mortarStep (pd : ℚ) (st : RainMortarSt) (dt : ℚ) (enemies : List ℕ)
    (r : ℕ) : RainMortarSt × Option ℕ :=
  let hasEnemy := !enemies.isEmpty
  let ft := st.frameTimer + dt
  match st.mortarState with
  | .idle =>
    if hasEnemy then
      ({ st with mortarState := .preheating, currentFrame := 1, frameTimer := 0 }, none)
    else ({ st with frameTimer := ft }, none)
  | .preheating =>
    if !hasEnemy then
      ({ st with mortarState := .idle, currentFrame := 0, frameTimer := 0 }, none)
    else if pd ≤ ft then
      if st.currentFrame < 12 then
        ({ st with frameTimer := 0, currentFrame := st.currentFrame + 1 }, none)
      else
        let st1 : RainMortarSt :=
          { mortarState := .firing, currentFrame := 13, frameTimer := 0,
            firedCount := 0, burstTimer := 0 }
        fireOneMortar st1 enemies r
    else ({ st with frameTimer := ft }, none)
  | .firing =>
    if !hasEnemy then
      ({ st with mortarState := .cooldown, frameTimer := 0 }, none)
    else
      let bt := st.burstTimer + dt
      let p : RainMortarSt × Option ℕ :=
        if st.firedCount < 4 ∧ (1 : ℚ) / 10 ≤ bt then
          let q := fireOneMortar { st with frameTimer := ft, burstTimer := 0 } enemies r
          ({ q.1 with currentFrame := min (13 + q.1.firedCount % 2) 15 }, q.2)
        else ({ st with frameTimer := ft, burstTimer := bt }, none)
      if 4 ≤ p.1.firedCount then
        ({ p.1 with mortarState := .cooldown, frameTimer := 0 }, p.2)
      else p
  | .cooldown =>
    if (1 : ℚ) / 2 ≤ ft then
      if hasEnemy then
        ({ st with mortarState := .preheating, currentFrame := 1, frameTimer := 0 }, none)
      else ({ st with mortarState := .idle, currentFrame := 0, frameTimer := 0 }, none)
    else ({ st with frameTimer := ft }, none)

/-- Run the state machine over a list of ticks `(deltaTime, in-range
enemies, random index)`, counting the fire events emitted. -/
def mortarRun (pd : ℚ) (st : RainMortarSt) :
    List (ℚ × List ℕ × ℕ) → RainMortarSt × ℕ
  | [] => (st, 0)
  | tk :: tks =>
    let p := mortarStep pd st tk.1 tk.2.1 tk.2.2
    let rest := mortarRun pd p.1 tks
    (rest.1, (if p.2.isSome then 1 else 0) + rest.2)

/-- The state entered at the moment preheating completes: Firing, frame
13, one shell already fired, burst timer zero. -/
def burstEntryState : RainMortarSt := ⟨.firing, 13, 0, 1, 0⟩

-- sanity: entering firing from preheat frame 12 fires one shot

lemma mortarRun_nil (pd : ℚ) (st : RainMortarSt) : mortarRun pd st [] = (st, 0) := rfl

lemma mortarRun_cons (pd : ℚ) (st : RainMortarSt) (tk : ℚ × List ℕ × ℕ)
    (l : List (ℚ × List ℕ × ℕ)) :
    mortarRun pd st (tk :: l) =
      ((mortarRun pd (mortarStep pd st tk.1 tk.2.1 tk.2.2).1 l).1,
        (if (mortarStep pd st tk.1 tk.2.1 tk.2.2).2.isSome then 1 else 0) +
          (mortarRun pd (mortarStep pd st tk.1 tk.2.1 tk.2.2).1 l).2) := rfl

lemma mortarStep_firing_fire (pd dt : ℚ) (es : List ℕ) (r : ℕ) (st : RainMortarSt)
    (hs : st.mortarState = .firing) (hne : es ≠ [])
    (hflt : st.firedCount < 4) (hbt : (1 : ℚ) / 10 ≤ st.burstTimer + dt) :
    mortarStep pd st dt es r =
      ((if 4 ≤ st.firedCount + 1 then
          ⟨.cooldown, min (13 + (st.firedCount + 1) % 2) 15, 0, st.firedCount + 1, 0⟩
        else
          ⟨.firing, min (13 + (st.firedCount + 1) % 2) 15, st.frameTimer + dt,
            st.firedCount + 1, 0⟩),
        some (es.getD (r % es.length) 0)) := by
  have hE : es.isEmpty = false := by
    simpa [List.isEmpty_iff] using hne
  obtain ⟨ms, cf, ftm, fc, bt⟩ := st
  simp only at hs hflt hbt ⊢
  subst hs
  have hbt2 : ((10 : ℚ))⁻¹ ≤ bt + dt := by rw [← one_div]; exact hbt
  by_cases h4 : 4 ≤ fc + 1 <;>
    simp [mortarStep, fireOneMortar, hE, hflt, hbt, hbt2, h4]

lemma mortarStep_firing_nofire (pd dt : ℚ) (es : List ℕ) (r : ℕ) (st : RainMortarSt)
    (hs : st.mortarState = .firing) (hne : es ≠ [])
    (hbt : st.burstTimer + dt < (1 : ℚ) / 10) (hfc : st.firedCount ≤ 3) :
    mortarStep pd st dt es r =
      (⟨.firing, st.currentFrame, st.frameTimer + dt, st.firedCount,
        st.burstTimer + dt⟩, none) := by
  have hE : es.isEmpty = false := by
    simpa [List.isEmpty_iff] using hne
  obtain ⟨ms, cf, ftm, fc, bt⟩ := st
  simp only at hs hbt hfc ⊢
  subst hs
  have hbt2 : ¬((10 : ℚ))⁻¹ ≤ bt + dt := by rw [← one_div]; exact not_le.mpr hbt
  simp [mortarStep, fireOneMortar, hE, not_le.mpr hbt, hbt2, show ¬(4 ≤ fc) by omega]

lemma countP_cons_le_succ (p : ℚ × List ℕ × ℕ → Bool) (a : ℚ × List ℕ × ℕ)
    (l : List (ℚ × List ℕ × ℕ)) :
    (a :: l).countP p ≤ l.countP p + 1 := by
  rw [List.countP_cons]
  split <;> omega

lemma countP_cons_eq_of_not (p : ℚ × List ℕ × ℕ → Bool) (a : ℚ × List ℕ × ℕ)
    (l : List (ℚ × List ℕ × ℕ)) (h : p a = false) :
    (a :: l).countP p = l.countP p := by
  rw [List.countP_cons, h]
  simp

lemma mortar_firing_progress (pd : ℚ) (ticks : List (ℚ × List ℕ × ℕ)) :
    ∀ st : RainMortarSt,
    st.mortarState = .firing → 1 ≤ st.firedCount → st.firedCount ≤ 3 →
    0 ≤ st.burstTimer →
    (∀ tk ∈ ticks, tk.2.1 ≠ []) → (∀ tk ∈ ticks, 0 ≤ tk.1) →
    4 - st.firedCount ≤ ticks.countP (fun tk => decide ((1 : ℚ) / 10 ≤ tk.1)) →
    ∃ k, k ≤ ticks.length ∧
      (mortarRun pd st (ticks.take k)).2 + st.firedCount = 4 ∧
      (mortarRun pd st (ticks.take k)).1.mortarState = .cooldown ∧
      (mortarRun pd st (ticks.take k)).1.firedCount = 4 ∧
      ∀ j, j < k →
        (mortarRun pd st (ticks.take j)).1.mortarState = .firing ∧
        (mortarRun pd st (ticks.take j)).2 + st.firedCount =
          (mortarRun pd st (ticks.take j)).1.firedCount ∧
        (mortarRun pd st (ticks.take j)).1.firedCount ≤ 3 := by
  induction ticks with
  | nil =>
    intro st _ h1 h3 _ _ _ hcount
    simp only [List.countP_nil] at hcount
    omega
  | cons tk tks ih =>
    intro st hs h1 h3 hbt0 hne hdt hcount
    have hnetk : tk.2.1 ≠ [] := hne tk (List.mem_cons_self tk tks)
    have hdttk : 0 ≤ tk.1 := hdt tk (List.mem_cons_self tk tks)
    have hnerest : ∀ x ∈ tks, x.2.1 ≠ [] :=
      fun x hx => hne x (List.mem_cons_of_mem tk hx)
    have hdtrest : ∀ x ∈ tks, 0 ≤ x.1 :=
      fun x hx => hdt x (List.mem_cons_of_mem tk hx)
    by_cases hfire : (1 : ℚ) / 10 ≤ st.burstTimer + tk.1
    · -- this tick fires a shot
      have hstep := mortarStep_firing_fire pd tk.1 tk.2.1 tk.2.2 st hs hnetk
        (by omega) hfire
      by_cases h4 : 4 ≤ st.firedCount + 1
      · -- fourth shot: burst complete, transition to cooldown
        have hstep4 : mortarStep pd st tk.1 tk.2.1 tk.2.2 =
            (⟨.cooldown, min (13 + (st.firedCount + 1) % 2) 15, 0,
              st.firedCount + 1, 0⟩,
              some (tk.2.1.getD (tk.2.2 % tk.2.1.length) 0)) := by
          rw [hstep, if_pos h4]
        refine ⟨1, Nat.succ_le_succ (Nat.zero_le tks.length), ?_, ?_, ?_, ?_⟩
        · rw [List.take_succ_cons, List.take_zero, mortarRun_cons, hstep4,
            mortarRun_nil]
          simp
          omega
        · rw [List.take_succ_cons, List.take_zero, mortarRun_cons, hstep4,
            mortarRun_nil]
        · rw [List.take_succ_cons, List.take_zero, mortarRun_cons, hstep4,
            mortarRun_nil]
          simp
          omega
        · intro j hj
          interval_cases j
          rw [List.take_zero, mortarRun_nil]
          exact ⟨hs, by simp, h3⟩
      · -- an intermediate shot: stay in firing with one more round fired
        have hstepm : mortarStep pd st tk.1 tk.2.1 tk.2.2 =
            (⟨.firing, min (13 + (st.firedCount + 1) % 2) 15,
              st.frameTimer + tk.1, st.firedCount + 1, 0⟩,
              some (tk.2.1.getD (tk.2.2 % tk.2.1.length) 0)) := by
          rw [hstep, if_neg h4]
        have hcount' : 4 - (st.firedCount + 1) ≤
            tks.countP (fun tk => decide ((1 : ℚ) / 10 ≤ tk.1)) := by
          have hb := countP_cons_le_succ
            (fun tk => decide ((1 : ℚ) / 10 ≤ tk.1)) tk tks
          omega
        obtain ⟨k, hk, hfs, hcool, hfc4, hpre⟩ := ih
          ⟨.firing, min (13 + (st.firedCount + 1) % 2) 15,
            st.frameTimer + tk.1, st.firedCount + 1, 0⟩ rfl
          (by simp) (by simp; omega) (by simp) hnerest hdtrest hcount'
        refine ⟨k + 1, Nat.succ_le_succ hk, ?_, ?_, ?_, ?_⟩
        · rw [List.take_succ_cons, mortarRun_cons, hstepm]
          simp only [Option.isSome_some, if_true]
          simp at hfs ⊢
          omega
        · rw [List.take_succ_cons, mortarRun_cons, hstepm]
          exact hcool
        · rw [List.take_succ_cons, mortarRun_cons, hstepm]
          exact hfc4
        · intro j hj
          cases j with
          | zero =>
            rw [List.take_zero, mortarRun_nil]
            exact ⟨hs, by simp, h3⟩
          | succ j' =>
            have hj' : j' < k := by omega
            obtain ⟨hp1, hp2, hp3⟩ := hpre j' hj'
            rw [List.take_succ_cons, mortarRun_cons, hstepm]
            refine ⟨hp1, ?_, hp3⟩
            simp only [Option.isSome_some, if_true]
            simp at hp2 ⊢
            omega
    · -- timer has not accumulated a full burst interval: no shot this tick
      have hstepn : mortarStep pd st tk.1 tk.2.1 tk.2.2 =
          (⟨.firing, st.currentFrame, st.frameTimer + tk.1, st.firedCount,
            st.burstTimer + tk.1⟩, none) :=
        mortarStep_firing_nofire pd tk.1 tk.2.1 tk.2.2 st hs hnetk
          (not_le.mp hfire) h3
      have hrich : ¬ ((1 : ℚ) / 10 ≤ tk.1) := by
        intro hr
        exact hfire (by linarith)
      have hcount' : 4 - st.firedCount ≤
          tks.countP (fun tk => decide ((1 : ℚ) / 10 ≤ tk.1)) := by
        have hb := countP_cons_eq_of_not
          (fun tk => decide ((1 : ℚ) / 10 ≤ tk.1)) tk tks (decide_eq_false hrich)
        omega
      obtain ⟨k, hk, hfs, hcool, hfc4, hpre⟩ := ih
        ⟨.firing, st.currentFrame, st.frameTimer + tk.1, st.firedCount,
          st.burstTimer + tk.1⟩ rfl (by simpa using h1) (by simpa using h3)
        (by simp; linarith) hnerest hdtrest (by simpa using hcount')
      refine ⟨k + 1, Nat.succ_le_succ hk, ?_, ?_, ?_, ?_⟩
      · rw [List.take_succ_cons, mortarRun_cons, hstepn]
        simp only [Option.isSome_none, Bool.false_eq_true, if_false, zero_add]
        simp at hfs ⊢
        omega
      · rw [List.take_succ_cons, mortarRun_cons, hstepn]
        exact hcool
      · rw [List.take_succ_cons, mortarRun_cons, hstepn]
        exact hfc4
      · intro j hj
        cases j with
        | zero =>
          rw [List.take_zero, mortarRun_nil]
          exact ⟨hs, by simp, h3⟩
        | succ j' =>
          have hj' : j' < k := by omega
          obtain ⟨hp1, hp2, hp3⟩ := hpre j' hj'
          rw [List.take_succ_cons, mortarRun_cons, hstepn]
          refine ⟨hp1, ?_, hp3⟩
          simp only [Option.isSome_none, Bool.false_eq_true, if_false, zero_add]
          simp at hp2 ⊢
          omega

/-- The constructor's preheat frame duration:
`(1/attackSpeed - burstCount*burstInterval - cooldownDuration) / 13` with
`attackSpeed = 0.25`. -/
def rainMortarPreheatFrameDuration : ℚ := (1 / (1 / 4) - 4 * (1 / 10) - 1 / 2) / 13

/-- C7: a burst during which the in-range target list stays non-empty
emits exactly 4 fire events - one on entering Firing (shown for any
preheat-completion tick) and three more while Firing - after which the
machine is in Cooldown; before the burst completes the machine stays in
Firing with at most 3 shells fired, regardless of how the target-list
membership changes between shots.  The schedule must contain at least
three ticks of length >= burstInterval with non-negative time deltas. -/
theorem mortar_burst_exactly_four (pd : ℚ) (ticks : List (ℚ × List ℕ × ℕ))
    (hne : ∀ tk ∈ ticks, tk.2.1 ≠ []) (hdt : ∀ tk ∈ ticks, 0 ≤ tk.1)
    (hrich : 3 ≤ ticks.countP (fun tk => decide ((1 : ℚ) / 10 ≤ tk.1))) :
    (∀ (dt : ℚ) (es : List ℕ) (r : ℕ), es ≠ [] → 0 ≤ dt →
      (mortarStep pd ⟨.preheating, 12, pd, 0, 0⟩ dt es r).1 = burstEntryState ∧
      (mortarStep pd ⟨.preheating, 12, pd, 0, 0⟩ dt es r).2.isSome = true) ∧
    ∃ k, k ≤ ticks.length ∧
      (mortarRun pd burstEntryState (ticks.take k)).2 = 3 ∧
      (mortarRun pd burstEntryState (ticks.take k)).1.mortarState = .cooldown ∧
      (mortarRun pd burstEntryState (ticks.take k)).1.firedCount = 4 ∧
      ∀ j, j < k →
        (mortarRun pd burstEntryState (ticks.take j)).1.mortarState = .firing ∧
        (mortarRun pd burstEntryState (ticks.take j)).2 ≤ 2 := by
  constructor
  · intro dt es r hes hdt0
    have hE : es.isEmpty = false := by simpa [List.isEmpty_iff] using hes
    have hpd : pd ≤ pd + dt := by linarith
    constructor <;>
      simp [mortarStep, fireOneMortar, burstEntryState, hE, hpd]
  · have hbf : burstEntryState.firedCount = 1 := rfl
    obtain ⟨k, hk, hfs, hcool, hfc4, hpre⟩ :=
      mortar_firing_progress pd ticks burstEntryState rfl (le_refl 1) (by decide)
        (le_refl 0) hne hdt (by rw [hbf]; omega)
    refine ⟨k, hk, ?_, hcool, hfc4, ?_⟩
    · rw [hbf] at hfs
      omega
    · intro j hj
      obtain ⟨hp1, hp2, hp3⟩ := hpre j hj
      refine ⟨hp1, ?_⟩
      rw [hbf] at hp2
      omega

/-- C7 witness: the real preheat duration and three 1-second ticks with
changing target lists. -/
theorem mortar_burst_exactly_four_witness :
    (∀ tk ∈ [((1 : ℚ), [5], 0), ((1 : ℚ), [6], 1), ((1 : ℚ), [5, 6], 2)],
      tk.2.1 ≠ ([] : List ℕ)) ∧
    (∀ tk ∈ [((1 : ℚ), [5], 0), ((1 : ℚ), [6], 1), ((1 : ℚ), [5, 6], 2)],
      (0 : ℚ) ≤ tk.1) ∧
    ((∀ (dt : ℚ) (es : List ℕ) (r : ℕ), es ≠ [] → 0 ≤ dt →
      (mortarStep rainMortarPreheatFrameDuration
        ⟨.preheating, 12, rainMortarPreheatFrameDuration, 0, 0⟩ dt es r).1 =
        burstEntryState ∧
      (mortarStep rainMortarPreheatFrameDuration
        ⟨.preheating, 12, rainMortarPreheatFrameDuration, 0, 0⟩ dt es r).2.isSome =
        true) ∧
    ∃ k, k ≤ ([((1 : ℚ), [5], 0), ((1 : ℚ), [6], 1),
        ((1 : ℚ), [5, 6], 2)] : List (ℚ × List ℕ × ℕ)).length ∧
      (mortarRun rainMortarPreheatFrameDuration burstEntryState
        (([((1 : ℚ), [5], 0), ((1 : ℚ), [6], 1), ((1 : ℚ), [5, 6], 2)]).take k)).2 = 3 ∧
      (mortarRun rainMortarPreheatFrameDuration burstEntryState
        (([((1 : ℚ), [5], 0), ((1 : ℚ), [6], 1),
          ((1 : ℚ), [5, 6], 2)]).take k)).1.mortarState = .cooldown ∧
      (mortarRun rainMortarPreheatFrameDuration burstEntryState
        (([((1 : ℚ), [5], 0), ((1 : ℚ), [6], 1),
          ((1 : ℚ), [5, 6], 2)]).take k)).1.firedCount = 4 ∧
      ∀ j, j < k →
        (mortarRun rainMortarPreheatFrameDuration burstEntryState
          (([((1 : ℚ), [5], 0), ((1 : ℚ), [6], 1),
            ((1 : ℚ), [5, 6], 2)]).take j)).1.mortarState = .firing ∧
        (mortarRun rainMortarPreheatFrameDuration burstEntryState
          (([((1 : ℚ), [5], 0), ((1 : ℚ), [6], 1),
            ((1 : ℚ), [5, 6], 2)]).take j)).2 ≤ 2) :=
  ⟨by simp, by norm_num,
    mortar_burst_exactly_four rainMortarPreheatFrameDuration
      [((1 : ℚ), [5], 0), ((1 : ℚ), [6], 1), ((1 : ℚ), [5, 6], 2)]
      (by simp) (by norm_num)
      (by norm_num [List.countP_cons, List.countP_nil])⟩

/-! ## Pathfinder (`PathFinding.findPath`)

A* over the grid: 4-directional neighbors, unit edge cost, Manhattan
heuristic, linear scan of the open list for the (leftmost) minimum
f-score, string-keyed closed set.  The JS node objects are modelled by
the open/closed position lists plus total maps `g` and `par`; each
position occurs in at most one node, `h` is a pure function of the
position, and `f = g + h` is maintained by the code at every write, so
the maps determine the node fields exactly.  The unbounded `while` loop
becomes fuel-based recursion; the fuel `width*height + 2` is proved
sufficient below (each iteration moves one new position - walkable or the
start - into the closed set). -/

/-- A grid coordinate. -/
abbrev Pos := ℤ × ℤ

/-- `PathFinding.heuristic`: Manhattan distance. -/
def heuristic (a b : Pos) : ℕ :=
  (a.1 - b.1).natAbs + (a.2 - b.2).natAbs

/-- `PathFinding.getNeighbors`: up, down, left, right. -/
def getNeighbors (p : Pos) : List Pos :=
  [(p.1, p.2 - 1), (p.1, p.2 + 1), (p.1 - 1, p.2), (p.1 + 1, p.2)]

/-- The A* search state: open-list positions in array order, closed-set
positions, and the per-position `g` and `parent` node fields. -/
structure AStarState where
  openL : List Pos
  closedL : List Pos
  g : Pos → ℕ
  par : Pos → Option Pos

/-- The f-score of a node: `g + h` (the code keeps `f` equal to this at
every assignment). -/
def fscore (endP : Pos) (st : AStarState) (p : Pos) : ℕ :=
  st.g p + heuristic p endP

/-- The open-list scan `for i in 1..len: if f(i) < f(cur) then cur := i`:
returns the leftmost minimum-f element of `best :: l`. -/
def pickMin (f : Pos → ℕ) : List Pos → Pos → Pos
  | [], best => best
  | p :: rest, best => pickMin f rest (if f p < f best then p else best)

/-- The neighbor-processing body of the A* loop: skip closed or
non-walkable cells; update `g`/`parent` when a strictly better route to
an open node is found; append new nodes to the open list. -/
def processNeighbor (m : GameMap) (cur : Pos) (st : AStarState) (nb : Pos) :
    AStarState :=
  if nb ∈ st.closedL then st
  else if ¬ isWalkable m nb.1 nb.2 then st
  else
    let tg := st.g cur + 1
    if nb ∈ st.openL then
      if tg < st.g nb then
        { st with g := fun p => if p = nb then tg else st.g p,
                  par := fun p => if p = nb then some cur else st.par p }
      else st
    else
      { openL := st.openL ++ [nb], closedL := st.closedL,
        g := fun p => if p = nb then tg else st.g p,
        par := fun p => if p = nb then some cur else st.par p }

/-- `buildPath`: follow parent links back to the start, accumulating the
route front-to-back.  The fuel bounds the number of links followed; the
parent chain of a node with `g = n` is proved to have exactly `n` links,
so the call below with fuel `g(end)` reproduces the `while` loop. -/
def buildPathAux (par : Pos → Option Pos) : ℕ → Pos → List Pos
  | 0, p => [p]
  | fuel + 1, p =>
    match par p with
    | none => [p]
    | some q => buildPathAux par fuel q ++ [p]

/-- The loop body after popping `cur`: move it from the open list to the
closed set, then process its four neighbors in order. -/
def stepState (m : GameMap) (st : AStarState) (cur : Pos) : AStarState :=
  (getNeighbors cur).foldl (processNeighbor m cur)
    { openL := st.openL.erase cur, closedL := cur :: st.closedL,
      g := st.g, par := st.par }

/-- The A* main loop: pop the leftmost minimum-f node; return the rebuilt
route when it is the objective; otherwise close it and process its four
neighbors.  Returns `some []` when the open list empties (no route),
`none` only on fuel exhaustion (proved unreachable). -/
def aStarLoop (m : GameMap) (endP : Pos) : ℕ → AStarState → Option (List Pos)
  | 0, _ => none
  | fuel + 1, st =>
    match st.openL with
    | [] => some []
    | hd :: rest =>
      let cur := pickMin (fscore endP st) rest hd
      if cur = endP then some (buildPathAux st.par (st.g cur) cur)
      else aStarLoop m endP fuel (stepState m st cur)

/-- The initial search state: the start node with `g = 0`, `parent =
null`, empty closed set. -/
def initState (startP : Pos) : AStarState :=
  { openL := [startP], closedL := [], g := fun _ => 0, par := fun _ => none }

/-- `PathFinding.findPath`: run the A* loop from the start node.  The
fuel `width*height + 2` strictly exceeds the number of loop iterations,
which is bounded by the number of walkable cells plus one. -/
def findPath (m : GameMap) (startP endP : Pos) : List Pos :=
  (aStarLoop m endP (m.width.toNat * m.height.toNat + 2) (initState startP)).getD []

/-- Reachability through walkable tiles by unit (4-directional) steps;
the start tile itself need not be walkable, matching the search (which
never checks the start's walkability). -/
inductive ReachableFrom (m : GameMap) (s : Pos) : Pos → Prop
  | refl : ReachableFrom m s s
  | step {p q : Pos} : ReachableFrom m s p → heuristic p q = 1 →
      isWalkable m q.1 q.2 = true → ReachableFrom m s q

lemma heuristic_triangle (a b c : Pos) :
    heuristic a c ≤ heuristic a b + heuristic b c := by
  unfold heuristic
  omega

lemma heuristic_eq_zero_iff (a b : Pos) : heuristic a b = 0 ↔ a = b := by
  unfold heuristic
  rw [Prod.ext_iff]
  omega

lemma heuristic_comm (a b : Pos) : heuristic a b = heuristic b a := by
  unfold heuristic
  omega

lemma mem_getNeighbors_iff (p q : Pos) :
    q ∈ getNeighbors p ↔ heuristic p q = 1 := by
  obtain ⟨px, py⟩ := p
  obtain ⟨qx, qy⟩ := q
  simp only [getNeighbors, heuristic, List.mem_cons, List.not_mem_nil, or_false,
    Prod.mk.injEq]
  omega

lemma pickMin_mem (f : Pos → ℕ) (l : List Pos) (b : Pos) :
    pickMin f l b = b ∨ pickMin f l b ∈ l := by
  induction l generalizing b with
  | nil => left; rfl
  | cons p rest ih =>
    rw [pickMin]
    rcases ih (if f p < f b then p else b) with h | h
    · rw [h]
      split
      · right; exact List.mem_cons_self _ _
      · left; rfl
    · right; exact List.mem_cons_of_mem p h

lemma pickMin_le (f : Pos → ℕ) (l : List Pos) (b : Pos) :
    ∀ p, (p = b ∨ p ∈ l) → f (pickMin f l b) ≤ f p := by
  induction l generalizing b with
  | nil =>
    intro p hp
    rcases hp with rfl | h
    · exact le_refl _
    · simp at h
  | cons q rest ih =>
    intro p hp
    rw [pickMin]
    have hb' : f (if f q < f b then q else b) ≤ f b ∧
        f (if f q < f b then q else b) ≤ f q := by
      split <;> constructor <;> omega
    have hseed : f (pickMin f rest (if f q < f b then q else b)) ≤
        f (if f q < f b then q else b) := ih _ _ (Or.inl rfl)
    rcases hp with rfl | hp
    · exact le_trans hseed hb'.1
    · rcases List.mem_cons.mp hp with rfl | hp
      · exact le_trans hseed hb'.2
      · exact ih _ _ (Or.inr hp)

lemma isWalkable_inBounds (m : GameMap) (x y : ℤ) (h : isWalkable m x y = true) :
    0 ≤ x ∧ x < m.width ∧ 0 ≤ y ∧ y < m.height := by
  unfold isWalkable getTile at h
  by_cases hb : x < 0 ∨ m.width ≤ x ∨ y < 0 ∨ m.height ≤ y
  · rw [if_pos hb] at h
    simp at h
  · omega

/-- A position carried by some search node (open or closed). -/
def inSys (st : AStarState) (p : Pos) : Prop :=
  p ∈ st.openL ∨ p ∈ st.closedL

/-- The search invariant: node positions are distinct and split between
the open and closed lists; every node is the start or a walkable cell;
`g` dominates the Manhattan distance from the start; and every node other
than the start has a closed parent one step away with `g` one larger. -/
structure AInv (m : GameMap) (startP : Pos) (st : AStarState) : Prop where
  nodupO : st.openL.Nodup
  nodupC : st.closedL.Nodup
  disj : ∀ p ∈ st.openL, p ∉ st.closedL
  memW : ∀ p, inSys st p → p = startP ∨ isWalkable m p.1 p.2 = true
  gLower : ∀ p, inSys st p → heuristic startP p ≤ st.g p
  startIn : inSys st startP
  startG : st.g startP = 0
  startPar : st.par startP = none
  chain : ∀ p, inSys st p → p ≠ startP →
    ∃ c, st.par p = some c ∧ c ∈ st.closedL ∧ heuristic c p = 1 ∧
      st.g p = st.g c + 1 ∧ isWalkable m p.1 p.2 = true

lemma pn_closedL (m : GameMap) (cur : Pos) (st : AStarState) (nb : Pos) :
    (processNeighbor m cur st nb).closedL = st.closedL := by
  simp only [processNeighbor]
  split_ifs <;> rfl

lemma pn_open_sub (m : GameMap) (cur : Pos) (st : AStarState) (nb p : Pos)
    (hp : p ∈ st.openL) : p ∈ (processNeighbor m cur st nb).openL := by
  simp only [processNeighbor]
  split_ifs <;> first
    | exact hp
    | exact List.mem_append_left _ hp

lemma pn_open_super (m : GameMap) (cur : Pos) (st : AStarState) (nb p : Pos)
    (hp : p ∈ (processNeighbor m cur st nb).openL) : p ∈ st.openL ∨ p = nb := by
  simp only [processNeighbor] at hp
  split_ifs at hp <;> first
    | exact Or.inl hp
    | simpa using List.mem_append.mp hp

lemma pn_other (m : GameMap) (cur : Pos) (st : AStarState) (nb p : Pos)
    (hne : p ≠ nb) :
    (processNeighbor m cur st nb).g p = st.g p ∧
    (processNeighbor m cur st nb).par p = st.par p := by
  simp only [processNeighbor]
  split_ifs <;> simp [hne]

lemma pn_g_closed (m : GameMap) (cur : Pos) (st : AStarState) (nb p : Pos)
    (hp : p ∈ st.closedL) :
    (processNeighbor m cur st nb).g p = st.g p ∧
    (processNeighbor m cur st nb).par p = st.par p := by
  by_cases hne : p = nb
  · subst hne
    simp only [processNeighbor]
    rw [if_pos hp]
    exact ⟨rfl, rfl⟩
  · exact pn_other m cur st nb p hne

lemma pn_g_le (m : GameMap) (cur : Pos) (st : AStarState) (nb p : Pos)
    (hp : p ∈ st.openL) :
    (processNeighbor m cur st nb).g p ≤ st.g p := by
  by_cases hne : p = nb
  · subst hne
    simp only [processNeighbor]
    split_ifs with h1 h2 h3
    · exact le_refl _
    · show (if p = p then st.g cur + 1 else st.g p) ≤ st.g p
      rw [if_pos rfl]
      omega
    · exact le_refl _
    · exact le_refl _
  · exact (pn_other m cur st nb p hne).1.le

lemma pn_establish (m : GameMap) (cur : Pos) (st : AStarState) (nb : Pos)
    (hnc : nb ∉ st.closedL) (hw : isWalkable m nb.1 nb.2 = true) :
    nb ∈ (processNeighbor m cur st nb).openL ∧
    (processNeighbor m cur st nb).g nb ≤ st.g cur + 1 := by
  simp only [processNeighbor]
  rw [if_neg hnc, if_neg (by simp [hw])]
  by_cases ho : nb ∈ st.openL
  · rw [if_pos ho]
    by_cases hg : st.g cur + 1 < st.g nb
    · rw [if_pos hg]
      constructor
      · exact ho
      · simp
    · rw [if_neg hg]
      exact ⟨ho, by omega⟩
  · rw [if_neg ho]
    constructor
    · simp
    · simp

lemma pn_inv (m : GameMap) (s cur : Pos) (st : AStarState) (nb : Pos)
    (inv : AInv m s st) (hc : cur ∈ st.closedL) (hadj : heuristic cur nb = 1) :
    AInv m s (processNeighbor m cur st nb) := by
  by_cases h1 : nb ∈ st.closedL
  · have he : processNeighbor m cur st nb = st := by
      simp only [processNeighbor]
      rw [if_pos h1]
    rw [he]
    exact inv
  have hcurne : cur ≠ nb := fun h => h1 (h ▸ hc)
  by_cases h2 : isWalkable m nb.1 nb.2 = true
  swap
  · have he : processNeighbor m cur st nb = st := by
      simp only [processNeighbor]
      rw [if_neg h1, if_pos h2]
    rw [he]
    exact inv
  by_cases h3 : nb ∈ st.openL
  · by_cases h4 : st.g cur + 1 < st.g nb
    · have he : processNeighbor m cur st nb =
          { st with g := fun p => if p = nb then st.g cur + 1 else st.g p,
                    par := fun p => if p = nb then some cur else st.par p } := by
        simp only [processNeighbor]
        rw [if_neg h1, if_neg (by simp [h2]), if_pos h3, if_pos h4]
      rw [he]
      have hgnb0 : nb ≠ s := by
        intro h
        subst h
        rw [inv.startG] at h4
        omega
      refine ⟨inv.nodupO, inv.nodupC, inv.disj, inv.memW, ?_, inv.startIn, ?_, ?_, ?_⟩
      · intro p hp
        by_cases hpn : p = nb
        · subst hpn
          show heuristic s p ≤ if p = p then st.g cur + 1 else st.g p
          rw [if_pos rfl]
          have := inv.gLower cur (Or.inr hc)
          have := heuristic_triangle s cur p
          omega
        · show heuristic s p ≤ if p = nb then st.g cur + 1 else st.g p
          rw [if_neg hpn]
          exact inv.gLower p hp
      · show (if s = nb then st.g cur + 1 else st.g s) = 0
        rw [if_neg (Ne.symm hgnb0)]
        exact inv.startG
      · show (if s = nb then some cur else st.par s) = none
        rw [if_neg (Ne.symm hgnb0)]
        exact inv.startPar
      · intro p hp hps
        by_cases hpn : p = nb
        · subst hpn
          refine ⟨cur, ?_, hc, hadj, ?_, h2⟩
          · show (if p = p then some cur else st.par p) = some cur
            rw [if_pos rfl]
          · show (if p = p then st.g cur + 1 else st.g p) =
              (if cur = p then st.g cur + 1 else st.g cur) + 1
            rw [if_pos rfl, if_neg hcurne]
        · obtain ⟨c, hpar, hcc, hadj', hg, hw⟩ := inv.chain p hp hps
          have hcn : c ≠ nb := fun h => h1 (h ▸ hcc)
          refine ⟨c, ?_, hcc, hadj', ?_, hw⟩
          · show (if p = nb then some cur else st.par p) = some c
            rw [if_neg hpn]
            exact hpar
          · show (if p = nb then st.g cur + 1 else st.g p) =
              (if c = nb then st.g cur + 1 else st.g c) + 1
            rw [if_neg hpn, if_neg hcn]
            exact hg
    · have he : processNeighbor m cur st nb = st := by
        simp only [processNeighbor]
        rw [if_neg h1, if_neg (by simp [h2]), if_pos h3, if_neg h4]
      rw [he]
      exact inv
  · have he : processNeighbor m cur st nb =
        { openL := st.openL ++ [nb], closedL := st.closedL,
          g := fun p => if p = nb then st.g cur + 1 else st.g p,
          par := fun p => if p = nb then some cur else st.par p } := by
      simp only [processNeighbor]
      rw [if_neg h1, if_neg (by simp [h2]), if_neg h3]
    rw [he]
    have hsys : ∀ p : Pos, (p ∈ st.openL ++ [nb] ∨ p ∈ st.closedL) →
        inSys st p ∨ p = nb := by
      intro p hp
      rcases hp with hp | hp
      · rcases List.mem_append.mp hp with hp | hp
        · exact Or.inl (Or.inl hp)
        · right
          simpa using hp
      · exact Or.inl (Or.inr hp)
    have hnbs : nb ≠ s := by
      intro h
      subst h
      rcases inv.startIn with hi | hi
      · exact h3 hi
      · exact h1 hi
    refine ⟨?_, inv.nodupC, ?_, ?_, ?_, ?_, ?_, ?_, ?_⟩
    · rw [List.nodup_append]
      exact ⟨inv.nodupO, List.nodup_singleton nb,
        fun a ha hb => (by simp at hb; exact h3 (hb ▸ ha))⟩
    · intro p hp
      rcases List.mem_append.mp hp with hp' | hp'
      · exact inv.disj p hp'
      · have hpn : p = nb := by simpa using hp'
        subst hpn
        exact h1
    · intro p hp
      rcases hsys p hp with hp' | hp'
      · exact inv.memW p hp'
      · subst hp'
        exact Or.inr h2
    · intro p hp
      rcases hsys p hp with hp' | hp'
      · by_cases hpn : p = nb
        · subst hpn
          show heuristic s p ≤ if p = p then st.g cur + 1 else st.g p
          rw [if_pos rfl]
          have := inv.gLower cur (Or.inr hc)
          have := heuristic_triangle s cur p
          omega
        · show heuristic s p ≤ if p = nb then st.g cur + 1 else st.g p
          rw [if_neg hpn]
          exact inv.gLower p hp'
      · subst hp'
        show heuristic s p ≤ if p = p then st.g cur + 1 else st.g p
        rw [if_pos rfl]
        have := inv.gLower cur (Or.inr hc)
        have := heuristic_triangle s cur p
        omega
    · rcases inv.startIn with hi | hi
      · exact Or.inl (List.mem_append_left _ hi)
      · exact Or.inr hi
    · show (if s = nb then st.g cur + 1 else st.g s) = 0
      rw [if_neg (Ne.symm hnbs)]
      exact inv.startG
    · show (if s = nb then some cur else st.par s) = none
      rw [if_neg (Ne.symm hnbs)]
      exact inv.startPar
    · intro p hp hps
      rcases hsys p hp with hp' | hp'
      · by_cases hpn : p = nb
        · subst hpn
          refine ⟨cur, ?_, hc, hadj, ?_, h2⟩
          · show (if p = p then some cur else st.par p) = some cur
            rw [if_pos rfl]
          · show (if p = p then st.g cur + 1 else st.g p) =
              (if cur = p then st.g cur + 1 else st.g cur) + 1
            rw [if_pos rfl, if_neg hcurne]
        · obtain ⟨c, hpar, hcc, hadj', hg, hw⟩ := inv.chain p hp' hps
          have hcn : c ≠ nb := fun h => h1 (h ▸ hcc)
          refine ⟨c, ?_, hcc, hadj', ?_, hw⟩
          · show (if p = nb then some cur else st.par p) = some c
            rw [if_neg hpn]
            exact hpar
          · show (if p = nb then st.g cur + 1 else st.g p) =
              (if c = nb then st.g cur + 1 else st.g c) + 1
            rw [if_neg hpn, if_neg hcn]
            exact hg
      · subst hp'
        refine ⟨cur, ?_, hc, hadj, ?_, h2⟩
        · show (if p = p then some cur else st.par p) = some cur
          rw [if_pos rfl]
        · show (if p = p then st.g cur + 1 else st.g p) =
            (if cur = p then st.g cur + 1 else st.g cur) + 1
          rw [if_pos rfl, if_neg hcurne]

lemma fold_pn_closedL (m : GameMap) (cur : Pos) (L : List Pos) :
    ∀ st : AStarState,
      (L.foldl (processNeighbor m cur) st).closedL = st.closedL := by
  induction L with
  | nil => intro st; rfl
  | cons a L ih =>
    intro st
    rw [List.foldl_cons, ih, pn_closedL]

lemma fold_pn_inv (m : GameMap) (s cur : Pos) (L : List Pos) :
    ∀ st : AStarState, AInv m s st → cur ∈ st.closedL →
      (∀ nb ∈ L, heuristic cur nb = 1) →
      AInv m s (L.foldl (processNeighbor m cur) st) := by
  induction L with
  | nil => intro st inv _ _; exact inv
  | cons a L ih =>
    intro st inv hc hadj
    rw [List.foldl_cons]
    refine ih _ (pn_inv m s cur st a inv hc (hadj a (List.mem_cons_self a L))) ?_ ?_
    · rw [pn_closedL]
      exact hc
    · exact fun nb h => hadj nb (List.mem_cons_of_mem a h)

lemma fold_pn_open_g (m : GameMap) (cur : Pos) (L : List Pos) :
    ∀ st : AStarState, ∀ p, p ∈ st.openL →
      p ∈ (L.foldl (processNeighbor m cur) st).openL ∧
      (L.foldl (processNeighbor m cur) st).g p ≤ st.g p := by
  induction L with
  | nil => intro st p hp; exact ⟨hp, le_refl _⟩
  | cons a L ih =>
    intro st p hp
    rw [List.foldl_cons]
    obtain ⟨h1, h2⟩ := ih (processNeighbor m cur st a) p (pn_open_sub m cur st a p hp)
    exact ⟨h1, le_trans h2 (pn_g_le m cur st a p hp)⟩

lemma fold_pn_g_closed (m : GameMap) (cur : Pos) (L : List Pos) :
    ∀ st : AStarState, ∀ p, p ∈ st.closedL →
      (L.foldl (processNeighbor m cur) st).g p = st.g p ∧
      (L.foldl (processNeighbor m cur) st).par p = st.par p := by
  induction L with
  | nil => intro st p _; exact ⟨rfl, rfl⟩
  | cons a L ih =>
    intro st p hp
    rw [List.foldl_cons]
    obtain ⟨h1, h2⟩ := ih (processNeighbor m cur st a) p (by rw [pn_closedL]; exact hp)
    obtain ⟨h3, h4⟩ := pn_g_closed m cur st a p hp
    exact ⟨h1.trans h3, h2.trans h4⟩

lemma fold_pn_establish (m : GameMap) (cur : Pos) (L : List Pos) :
    ∀ st : AStarState, ∀ nb, cur ∈ st.closedL → nb ∈ L → nb ∉ st.closedL →
      isWalkable m nb.1 nb.2 = true →
      nb ∈ (L.foldl (processNeighbor m cur) st).openL ∧
      (L.foldl (processNeighbor m cur) st).g nb ≤ st.g cur + 1 := by
  induction L with
  | nil =>
    intro st nb _ hnb _ _
    simp at hnb
  | cons a L ih =>
    intro st nb hc hnbL hnc hw
    rw [List.foldl_cons]
    rcases List.mem_cons.mp hnbL with rfl | hnb'
    · obtain ⟨h1, h2⟩ := pn_establish m cur st nb hnc hw
      obtain ⟨h3, h4⟩ := fold_pn_open_g m cur L (processNeighbor m cur st nb) nb h1
      exact ⟨h3, le_trans h4 h2⟩
    · have hcc : cur ∈ (processNeighbor m cur st a).closedL := by
        rw [pn_closedL]; exact hc
      have hncc : nb ∉ (processNeighbor m cur st a).closedL := by
        rw [pn_closedL]; exact hnc
      obtain ⟨h1, h2⟩ := ih (processNeighbor m cur st a) nb hcc hnb' hncc hw
      refine ⟨h1, ?_⟩
      rw [(pn_g_closed m cur st a cur hc).1] at h2
      exact h2

lemma pop_sys (st : AStarState) (cur : Pos) (hc : cur ∈ st.openL) (p : Pos) :
    inSys ⟨st.openL.erase cur, cur :: st.closedL, st.g, st.par⟩ p → inSys st p := by
  intro hp
  rcases hp with hp | hp
  · exact Or.inl (List.erase_subset _ _ hp)
  · rcases List.mem_cons.mp hp with rfl | hp
    · exact Or.inl hc
    · exact Or.inr hp

lemma pop_inv (m : GameMap) (s : Pos) (st : AStarState) (cur : Pos)
    (inv : AInv m s st) (hc : cur ∈ st.openL) :
    AInv m s ⟨st.openL.erase cur, cur :: st.closedL, st.g, st.par⟩ := by
  refine ⟨inv.nodupO.erase cur, ?_, ?_, ?_, ?_, ?_, inv.startG, inv.startPar, ?_⟩
  · exact List.nodup_cons.mpr ⟨inv.disj cur hc, inv.nodupC⟩
  · intro p hp
    obtain ⟨hne, hmem⟩ := (inv.nodupO.mem_erase_iff).mp hp
    rw [List.mem_cons]
    rintro (rfl | h)
    · exact hne rfl
    · exact inv.disj p hmem h
  · exact fun p hp => inv.memW p (pop_sys st cur hc p hp)
  · exact fun p hp => inv.gLower p (pop_sys st cur hc p hp)
  · by_cases hsc : s = cur
    · subst hsc
      exact Or.inr (List.mem_cons_self s _)
    · rcases inv.startIn with hi | hi
      · exact Or.inl ((List.mem_erase_of_ne hsc).mpr hi)
      · exact Or.inr (List.mem_cons_of_mem cur hi)
  · intro p hp hps
    obtain ⟨c, hpar, hcc, hadj, hg, hw⟩ := inv.chain p (pop_sys st cur hc p hp) hps
    exact ⟨c, hpar, List.mem_cons_of_mem cur hcc, hadj, hg, hw⟩

lemma step_inv (m : GameMap) (s : Pos) (st : AStarState) (cur : Pos)
    (inv : AInv m s st) (hc : cur ∈ st.openL) :
    AInv m s (stepState m st cur) := by
  unfold stepState
  refine fold_pn_inv m s cur (getNeighbors cur) _
    (pop_inv m s st cur inv hc) (List.mem_cons_self cur _) ?_
  exact fun nb h => (mem_getNeighbors_iff cur nb).mp h

lemma chain_reachable (m : GameMap) (s : Pos) (st : AStarState) (inv : AInv m s st) :
    ∀ (n : ℕ) (p : Pos), inSys st p → st.g p ≤ n → ReachableFrom m s p := by
  intro n
  induction n with
  | zero =>
    intro p hp hg
    by_cases hps : p = s
    · subst hps
      exact ReachableFrom.refl
    · obtain ⟨c, _, _, _, hgp, _⟩ := inv.chain p hp hps
      omega
  | succ n ih =>
    intro p hp hg
    by_cases hps : p = s
    · subst hps
      exact ReachableFrom.refl
    · obtain ⟨c, hpar, hcc, hadj, hgp, hw⟩ := inv.chain p hp hps
      exact ReachableFrom.step (ih c (Or.inr hcc) (by omega)) hadj hw

lemma buildPath_len (m : GameMap) (s : Pos) (st : AStarState) (inv : AInv m s st) :
    ∀ (n : ℕ) (p : Pos), inSys st p → st.g p = n → ∀ fuel, n ≤ fuel →
      (buildPathAux st.par fuel p).length = n + 1 := by
  intro n
  induction n with
  | zero =>
    intro p hp hg fuel _
    have hps : p = s := by
      by_contra hps
      obtain ⟨c, _, _, _, hgp, _⟩ := inv.chain p hp hps
      omega
    subst hps
    cases fuel with
    | zero => rfl
    | succ f =>
      rw [buildPathAux, inv.startPar]
      rfl
  | succ n ih =>
    intro p hp hg fuel hf
    have hps : p ≠ s := by
      intro h
      subst h
      rw [inv.startG] at hg
      omega
    obtain ⟨c, hpar, hcc, hadj, hgp, hw⟩ := inv.chain p hp hps
    obtain ⟨f, rfl⟩ : ∃ f, fuel = f + 1 := ⟨fuel - 1, by omega⟩
    rw [buildPathAux, hpar, List.length_append,
      ih c (Or.inr hcc) (by omega) f (by omega)]
    simp

lemma pickMin_openL_mem (f : Pos → ℕ) (st : AStarState) (hd : Pos) (rest : List Pos)
    (hop : st.openL = hd :: rest) : pickMin f rest hd ∈ st.openL := by
  rw [hop]
  rcases pickMin_mem f rest hd with h | h
  · rw [h]
    exact List.mem_cons_self hd rest
  · exact List.mem_cons_of_mem hd h

lemma aStarLoop_sound (m : GameMap) (s e : Pos) :
    ∀ (fuel : ℕ) (st : AStarState), AInv m s st →
      ∀ l, aStarLoop m e fuel st = some l → l ≠ [] → ReachableFrom m s e := by
  intro fuel
  induction fuel with
  | zero =>
    intro st _ l h
    simp [aStarLoop] at h
  | succ fuel ih =>
    intro st inv l hl hne
    rw [aStarLoop] at hl
    cases hop : st.openL with
    | nil =>
      rw [hop] at hl
      simp at hl
      exact absurd hl hne
    | cons hd rest =>
      rw [hop] at hl
      dsimp only at hl
      have hcmem : pickMin (fscore e st) rest hd ∈ st.openL :=
        pickMin_openL_mem (fscore e st) st hd rest hop
      by_cases hce : pickMin (fscore e st) rest hd = e
      · have := chain_reachable m s st inv (st.g (pickMin (fscore e st) rest hd))
          (pickMin (fscore e st) rest hd) (Or.inl hcmem) (le_refl _)
        rw [hce] at this
        exact this
      · rw [if_neg hce] at hl
        exact ih (stepState m st (pickMin (fscore e st) rest hd))
          (step_inv m s st (pickMin (fscore e st) rest hd) inv hcmem) l hl hne

lemma init_inv (m : GameMap) (s : Pos) : AInv m s (initState s) := by
  have hopen : (initState s).openL = [s] := rfl
  have hclosed : (initState s).closedL = [] := rfl
  have hmem : ∀ p : Pos, inSys (initState s) p → p = s := by
    intro p hp
    rcases hp with hp | hp
    · rw [hopen] at hp
      simpa using hp
    · rw [hclosed] at hp
      simp at hp
  refine ⟨?_, ?_, ?_, ?_, ?_, ?_, rfl, rfl, ?_⟩
  · rw [hopen]
    exact List.nodup_singleton s
  · rw [hclosed]
    exact List.nodup_nil
  · intro p _
    rw [hclosed]
    exact List.not_mem_nil p
  · intro p hp
    exact Or.inl (hmem p hp)
  · intro p hp
    rw [hmem p hp]
    have h0 : heuristic s s = 0 := (heuristic_eq_zero_iff s s).mpr rfl
    have hg : (initState s).g p = 0 := rfl
    omega
  · left
    rw [hopen]
    exact List.mem_cons_self s []
  · intro p hp hps
    exact absurd (hmem p hp) hps

/-- C4: whenever the objective is unreachable from the start through
walkable tiles, `findPath` returns the empty route (and, being a total
function, never throws). -/
theorem findPath_unreachable_empty (m : GameMap) (s e : Pos)
    (h : ¬ ReachableFrom m s e) : findPath m s e = [] := by
  unfold findPath
  cases hres : aStarLoop m e (m.width.toNat * m.height.toNat + 2) (initState s) with
  | none => rfl
  | some l =>
    by_cases hl : l = []
    · subst hl
      rfl
    · exact absurd (aStarLoop_sound m s e _ (initState s) (init_inv m s) l hres hl) h

/-- A 5×5 map whose center tile (2,2) is enclosed by four obstacle
tiles: the objective is fully walled off from (0,0). -/
def walledMap : GameMap :=
  GameMap.mk 5 5
    (fun p => if p = (2, 1) ∨ p = (2, 3) ∨ p = (1, 2) ∨ p = (3, 2)
      then TileType.obstacle else TileType.ground)
    (fun _ => false) (fun _ => 0)

lemma walledMap_unreachable : ¬ ReachableFrom walledMap (0, 0) (2, 2) := by
  intro h
  cases h with
  | step hp hadj hw =>
    rename_i p
    obtain ⟨px, py⟩ := p
    have hcases : (px = 2 ∧ py = 1) ∨ (px = 2 ∧ py = 3) ∨ (px = 1 ∧ py = 2) ∨
        (px = 3 ∧ py = 2) := by
      simp [heuristic] at hadj
      omega
    have hpw : ¬ isWalkable walledMap px py = true := by
      rcases hcases with ⟨h1, h2⟩ | ⟨h1, h2⟩ | ⟨h1, h2⟩ | ⟨h1, h2⟩ <;>
        subst h1 <;> subst h2 <;> decide
    cases hp with
    | refl =>
      rcases hcases with ⟨h1, h2⟩ | ⟨h1, h2⟩ | ⟨h1, h2⟩ | ⟨h1, h2⟩ <;> omega
    | step _ _ hw' => exact hpw hw'

/-- C4 witness: on the walled map, `findPath` returns the empty route. -/
theorem findPath_unreachable_empty_witness :
    ¬ ReachableFrom walledMap (0, 0) (2, 2) ∧ findPath walledMap (0, 0) (2, 2) = [] :=
  ⟨walledMap_unreachable,
    findPath_unreachable_empty walledMap (0, 0) (2, 2) walledMap_unreachable⟩

/-! ### Completeness on open grids (claim C3)

On a map whose in-bounds tiles are all walkable, the code returns a route
of length exactly `Manhattan(start, end) + 1`.  The proof follows one
canonical geodesic `geo`: the invariant `Jinv` maintains an open node on
it whose `g` equals its geodesic index, with the geodesic's tail never
closed; minimality of the popped f-score forces `g(end) =
Manhattan(start, end)` when the objective is popped. -/

/-- One axis-aligned unit step from `p` toward `e` (x first, then y). -/
def stepToward (e p : Pos) : Pos :=
  if p.1 < e.1 then (p.1 + 1, p.2)
  else if e.1 < p.1 then (p.1 - 1, p.2)
  else if p.2 < e.2 then (p.1, p.2 + 1)
  else if e.2 < p.2 then (p.1, p.2 - 1)
  else p

/-- The canonical geodesic from `s` toward `e`. -/
def geo (e s : Pos) (i : ℕ) : Pos := (stepToward e)^[i] s

lemma geo_zero (e s : Pos) : geo e s 0 = s := rfl

lemma geo_succ (e s : Pos) (i : ℕ) :
    geo e s (i + 1) = stepToward e (geo e s i) :=
  Function.iterate_succ_apply' (stepToward e) i s

lemma stepToward_dist (e p : Pos) (h : p ≠ e) :
    heuristic p (stepToward e p) = 1 ∧
    heuristic (stepToward e p) e + 1 = heuristic p e := by
  obtain ⟨px, py⟩ := p
  obtain ⟨ex, ey⟩ := e
  have hne : px ≠ ex ∨ py ≠ ey := by
    by_contra hc
    push_neg at hc
    exact h (by rw [hc.1, hc.2])
  unfold stepToward heuristic
  rcases hne with hne | hne <;>
    split_ifs <;> constructor <;> simp <;> omega

lemma geo_dist (e s : Pos) :
    ∀ i, i ≤ heuristic s e →
      heuristic (geo e s i) e = heuristic s e - i := by
  intro i
  induction i with
  | zero =>
    intro _
    rw [geo_zero]
    omega
  | succ i ih =>
    intro hi
    have hlt : i < heuristic s e := by omega
    have hd := ih (by omega)
    have hne : geo e s i ≠ e := by
      intro h
      rw [(heuristic_eq_zero_iff _ _).mpr h] at hd
      omega
    have hs := (stepToward_dist e (geo e s i) hne).2
    rw [geo_succ]
    omega

lemma geo_adj (e s : Pos) (i : ℕ) (hi : i < heuristic s e) :
    heuristic (geo e s i) (geo e s (i + 1)) = 1 := by
  have hd := geo_dist e s i (by omega)
  have hne : geo e s i ≠ e := by
    intro h
    rw [(heuristic_eq_zero_iff _ _).mpr h] at hd
    omega
  rw [geo_succ]
  exact (stepToward_dist e (geo e s i) hne).1

lemma geo_start (e s : Pos) :
    ∀ i, i ≤ heuristic s e → heuristic s (geo e s i) = i := by
  intro i
  induction i with
  | zero =>
    intro _
    rw [geo_zero]
    exact (heuristic_eq_zero_iff s s).mpr rfl
  | succ i ih =>
    intro hi
    have hle : heuristic s (geo e s (i + 1)) ≤ i + 1 := by
      have ht := heuristic_triangle s (geo e s i) (geo e s (i + 1))
      have := ih (by omega)
      have := geo_adj e s i (by omega)
      omega
    have hge : i + 1 ≤ heuristic s (geo e s (i + 1)) := by
      have ht := heuristic_triangle s (geo e s (i + 1)) e
      have := geo_dist e s (i + 1) hi
      omega
    omega

lemma geo_end (e s : Pos) : geo e s (heuristic s e) = e := by
  have := geo_dist e s (heuristic s e) (le_refl _)
  rw [Nat.sub_self] at this
  exact (heuristic_eq_zero_iff _ _).mp this

lemma geo_inj (e s : Pos) (i j : ℕ) (hi : i ≤ heuristic s e)
    (hj : j ≤ heuristic s e) (h : geo e s i = geo e s j) : i = j := by
  have h1 := geo_start e s i hi
  have h2 := geo_start e s j hj
  rw [h] at h1
  omega

/-- In-bounds cells of a map. -/
def inGrid (m : GameMap) (p : Pos) : Prop :=
  0 ≤ p.1 ∧ p.1 < m.width ∧ 0 ≤ p.2 ∧ p.2 < m.height

/-- A map all of whose in-bounds tiles are walkable. -/
def OpenGrid (m : GameMap) : Prop :=
  ∀ p : Pos, inGrid m p → isWalkable m p.1 p.2 = true

lemma stepToward_inGrid (m : GameMap) (e p : Pos) (hp : inGrid m p)
    (he : inGrid m e) : inGrid m (stepToward e p) := by
  obtain ⟨px, py⟩ := p
  obtain ⟨ex, ey⟩ := e
  obtain ⟨h1, h2, h3, h4⟩ := hp
  obtain ⟨h5, h6, h7, h8⟩ := he
  unfold stepToward inGrid at *
  split_ifs <;> simp at * <;> omega

lemma geo_inGrid (m : GameMap) (e s : Pos) (hs : inGrid m s) (he : inGrid m e) :
    ∀ i, inGrid m (geo e s i) := by
  intro i
  induction i with
  | zero => exact hs
  | succ i ih =>
    rw [geo_succ]
    exact stepToward_inGrid m e (geo e s i) ih he

/-- The completeness invariant: some geodesic cell `geo i` is an open
node with `g ≤ i`, and no geodesic cell with index in `[i, D]` has been
closed. -/
def Jinv (e s : Pos) (st : AStarState) : Prop :=
  ∃ i, i ≤ heuristic s e ∧ geo e s i ∈ st.openL ∧ st.g (geo e s i) ≤ i ∧
    ∀ j, i ≤ j → j ≤ heuristic s e → geo e s j ∉ st.closedL

lemma stepState_closedL (m : GameMap) (st : AStarState) (cur : Pos) :
    (stepState m st cur).closedL = cur :: st.closedL := by
  unfold stepState
  rw [fold_pn_closedL]

lemma fmin_of_pick (e : Pos) (st : AStarState) (hd : Pos) (rest : List Pos)
    (hop : st.openL = hd :: rest) :
    ∀ p ∈ st.openL, fscore e st (pickMin (fscore e st) rest hd) ≤ fscore e st p := by
  intro p hp
  rw [hop] at hp
  rcases List.mem_cons.mp hp with h | h
  · subst h
    exact pickMin_le (fscore e st) rest p p (Or.inl rfl)
  · exact pickMin_le (fscore e st) rest hd p (Or.inr h)

lemma step_J (m : GameMap) (s e : Pos) (st : AStarState) (hd : Pos)
    (rest : List Pos) (inv : AInv m s st) (J : Jinv e s st) (og : OpenGrid m)
    (hs : inGrid m s) (he : inGrid m e) (hop : st.openL = hd :: rest)
    (hne : pickMin (fscore e st) rest hd ≠ e) :
    Jinv e s (stepState m st (pickMin (fscore e st) rest hd)) := by
  obtain ⟨i, hiD, hio, hig, hic⟩ := J
  set cur := pickMin (fscore e st) rest hd with hcur
  have hcmem : cur ∈ st.openL := pickMin_openL_mem (fscore e st) st hd rest hop
  have hfmin := fmin_of_pick e st hd rest hop
  rw [← hcur] at hfmin
  have hfqi : fscore e st (geo e s i) ≤ heuristic s e := by
    unfold fscore
    have h1 := geo_dist e s i hiD
    omega
  by_cases hj : ∃ j, i ≤ j ∧ j ≤ heuristic s e ∧ cur = geo e s j
  · obtain ⟨j, hij, hjD, hcurj⟩ := hj
    have hjD' : j < heuristic s e := by
      rcases Nat.lt_or_ge j (heuristic s e) with h | h
      · exact h
      · exfalso
        have hje : j = heuristic s e := by omega
        rw [hje, geo_end] at hcurj
        exact hne hcurj
    have hgcur : st.g cur ≤ j := by
      have h1 := hfmin (geo e s i) hio
      have h2 : fscore e st cur = st.g cur + (heuristic s e - j) := by
        unfold fscore
        rw [hcurj, geo_dist e s j (by omega)]
      omega
    have hadj : heuristic cur (geo e s (j + 1)) = 1 := by
      rw [hcurj]
      exact geo_adj e s j hjD'
    have hnbmem : geo e s (j + 1) ∈ getNeighbors cur :=
      (mem_getNeighbors_iff cur (geo e s (j + 1))).mpr hadj
    have hnw : isWalkable m (geo e s (j + 1)).1 (geo e s (j + 1)).2 = true :=
      og _ (geo_inGrid m e s hs he (j + 1))
    have hnbnotc : geo e s (j + 1) ∉
        (⟨st.openL.erase cur, cur :: st.closedL, st.g, st.par⟩ :
          AStarState).closedL := by
      intro hmem
      rcases List.mem_cons.mp hmem with hmem | hmem
      · have := geo_inj e s (j + 1) j (by omega) (by omega)
          (by rw [← hcurj, ← hmem])
        omega
      · exact hic (j + 1) (by omega) (by omega) hmem
    obtain ⟨hmem', hg'⟩ := fold_pn_establish m cur (getNeighbors cur)
      ⟨st.openL.erase cur, cur :: st.closedL, st.g, st.par⟩ (geo e s (j + 1))
      (List.mem_cons_self cur st.closedL) hnbmem hnbnotc hnw
    refine ⟨j + 1, by omega, ?_, ?_, ?_⟩
    · exact hmem'
    · have hgpop : (⟨st.openL.erase cur, cur :: st.closedL, st.g, st.par⟩ :
          AStarState).g cur = st.g cur := rfl
      show (stepState m st cur).g (geo e s (j + 1)) ≤ j + 1
      unfold stepState
      rw [hgpop] at hg'
      omega
    · intro j' h1 h2 hmem
      rw [stepState_closedL] at hmem
      rcases List.mem_cons.mp hmem with hmem | hmem
      · have := geo_inj e s j' j (by omega) (by omega)
          (by rw [← hcurj, hmem])
        omega
      · exact hic j' (by omega) h2 hmem
  · push_neg at hj
    have hone : geo e s i ≠ cur := by
      intro h
      exact hj i (le_refl i) hiD h.symm
    have hioe : geo e s i ∈
        (⟨st.openL.erase cur, cur :: st.closedL, st.g, st.par⟩ :
          AStarState).openL :=
      (List.mem_erase_of_ne hone).mpr hio
    obtain ⟨hmem', hg'⟩ := fold_pn_open_g m cur (getNeighbors cur)
      ⟨st.openL.erase cur, cur :: st.closedL, st.g, st.par⟩ (geo e s i) hioe
    refine ⟨i, hiD, hmem', ?_, ?_⟩
    · show (stepState m st cur).g (geo e s i) ≤ i
      unfold stepState
      have hgpop : (⟨st.openL.erase cur, cur :: st.closedL, st.g, st.par⟩ :
          AStarState).g (geo e s i) = st.g (geo e s i) := rfl
      rw [hgpop] at hg'
      omega
    · intro j' h1 h2 hmem
      rw [stepState_closedL] at hmem
      rcases List.mem_cons.mp hmem with hmem | hmem
      · exact hj j' h1 h2 hmem.symm
      · exact hic j' h1 h2 hmem

/-- All positions a search node can carry: the in-bounds cells plus the
start. -/
def allowedCells (m : GameMap) (s : Pos) : Finset Pos :=
  insert s ((Finset.Ico (0 : ℤ) m.width) ×ˢ (Finset.Ico (0 : ℤ) m.height))

lemma closed_subset_allowed (m : GameMap) (s : Pos) (st : AStarState)
    (inv : AInv m s st) : ∀ p ∈ st.closedL, p ∈ allowedCells m s := by
  intro p hp
  rcases inv.memW p (Or.inr hp) with h | h
  · subst h
    exact Finset.mem_insert_self p _
  · obtain ⟨h1, h2, h3, h4⟩ := isWalkable_inBounds m p.1 p.2 h
    refine Finset.mem_insert_of_mem ?_
    rw [Finset.mem_product, Finset.mem_Ico, Finset.mem_Ico]
    exact ⟨⟨h1, h2⟩, ⟨h3, h4⟩⟩

lemma closed_length_le (m : GameMap) (s : Pos) (st : AStarState)
    (inv : AInv m s st) : st.closedL.length ≤ (allowedCells m s).card := by
  rw [← List.toFinset_card_of_nodup inv.nodupC]
  refine Finset.card_le_card ?_
  intro p hp
  rw [List.mem_toFinset] at hp
  exact closed_subset_allowed m s st inv p hp

lemma allowed_card_le (m : GameMap) (s : Pos) :
    (allowedCells m s).card ≤ m.width.toNat * m.height.toNat + 1 := by
  refine le_trans (Finset.card_insert_le s _) ?_
  rw [Finset.card_product, Int.card_Ico, Int.card_Ico, Int.sub_zero, Int.sub_zero]

lemma aStarLoop_complete (m : GameMap) (s e : Pos) (og : OpenGrid m)
    (hs : inGrid m s) (he : inGrid m e) :
    ∀ (fuel : ℕ) (st : AStarState), AInv m s st → Jinv e s st →
      (allowedCells m s).card + 1 ≤ fuel + st.closedL.length →
      ∃ l, aStarLoop m e fuel st = some l ∧ l.length = heuristic s e + 1 := by
  intro fuel
  induction fuel with
  | zero =>
    intro st inv _ hfuel
    have := closed_length_le m s st inv
    omega
  | succ fuel ih =>
    intro st inv J hfuel
    obtain ⟨i, hiD, hio, hig, hic⟩ := J
    cases hop : st.openL with
    | nil =>
      rw [hop] at hio
      simp at hio
    | cons hd rest =>
      rw [aStarLoop, hop]
      dsimp only
      by_cases hce : pickMin (fscore e st) rest hd = e
      · rw [if_pos hce]
        have hcmem : pickMin (fscore e st) rest hd ∈ st.openL :=
          pickMin_openL_mem (fscore e st) st hd rest hop
        have hlow : heuristic s e ≤ st.g (pickMin (fscore e st) rest hd) := by
          have h0 := inv.gLower (pickMin (fscore e st) rest hd) (Or.inl hcmem)
          have h0e : heuristic s (pickMin (fscore e st) rest hd) = heuristic s e := by
            rw [hce]
          omega
        have hup : st.g (pickMin (fscore e st) rest hd) ≤ heuristic s e := by
          have h1 := fmin_of_pick e st hd rest hop (geo e s i) hio
          have h2 : fscore e st (geo e s i) ≤ heuristic s e := by
            unfold fscore
            have := geo_dist e s i hiD
            omega
          have hfs : ∀ p, fscore e st p = st.g p + heuristic p e := fun _ => rfl
          have h3 : fscore e st (pickMin (fscore e st) rest hd) =
              st.g (pickMin (fscore e st) rest hd) + 0 := by
            rw [hfs]
            have : heuristic (pickMin (fscore e st) rest hd) e = 0 := by
              rw [hce]
              exact (heuristic_eq_zero_iff e e).mpr rfl
            omega
          omega
        have hgd : st.g (pickMin (fscore e st) rest hd) = heuristic s e := by omega
        refine ⟨_, rfl, ?_⟩
        rw [buildPath_len m s st inv (st.g (pickMin (fscore e st) rest hd))
          (pickMin (fscore e st) rest hd) (Or.inl hcmem) rfl _ (le_refl _), hgd]
      · rw [if_neg hce]
        refine ih (stepState m st (pickMin (fscore e st) rest hd))
          (step_inv m s st _ inv (pickMin_openL_mem (fscore e st) st hd rest hop))
          (step_J m s e st hd rest inv ⟨i, hiD, hio, hig, hic⟩ og hs he hop hce) ?_
        rw [stepState_closedL]
        simp only [List.length_cons]
        omega

/-- C3: on an open grid (every in-bounds tile walkable), `findPath`
returns a route whose length is the Manhattan distance between the start
and the objective plus one (both endpoints included). -/
theorem findPath_open_grid_length (m : GameMap) (s e : Pos) (og : OpenGrid m)
    (hs : inGrid m s) (he : inGrid m e) :
    (findPath m s e).length = heuristic s e + 1 := by
  unfold findPath
  have hclen : (initState s).closedL.length = 0 := rfl
  have hcard : (allowedCells m s).card + 1 ≤
      (m.width.toNat * m.height.toNat + 2) + (initState s).closedL.length := by
    have := allowed_card_le m s
    omega
  have hJ : Jinv e s (initState s) := by
    refine ⟨0, Nat.zero_le _, ?_, ?_, ?_⟩
    · rw [geo_zero]
      exact List.mem_cons_self s []
    · exact Nat.le_refl 0
    · intro j _ _ hmem
      exact List.not_mem_nil _ hmem
  obtain ⟨l, hl, hlen⟩ := aStarLoop_complete m s e og hs he _ (initState s)
    (init_inv m s) hJ hcard
  rw [hl]
  exact hlen

/-- A fully open 4×3 ground map. -/
def openMap3 : GameMap :=
  GameMap.mk 4 3 (fun _ => TileType.ground) (fun _ => false) (fun _ => 0)

lemma openMap3_open : OpenGrid openMap3 := by
  intro p hp
  obtain ⟨h1, h2, h3, h4⟩ := hp
  have h2' : p.1 < 4 := h2
  have h4' : p.2 < 3 := h4
  unfold isWalkable getTile
  rw [if_neg (show ¬(p.1 < 0 ∨ openMap3.width ≤ p.1 ∨ p.2 < 0 ∨
    openMap3.height ≤ p.2) from by
      have hw : openMap3.width = 4 := rfl
      have hh : openMap3.height = 3 := rfl
      rw [hw, hh]
      omega)]
  rfl

/-- C3 witness: on the open 4×3 map, the route from (0,0) to (3,1) has
Manhattan distance 4 and the returned route has 5 tiles. -/
theorem findPath_open_grid_length_witness :
    OpenGrid openMap3 ∧ inGrid openMap3 (0, 0) ∧ inGrid openMap3 (3, 1) ∧
    heuristic (0, 0) (3, 1) = 4 ∧
    (findPath openMap3 (0, 0) (3, 1)).length = heuristic (0, 0) (3, 1) + 1 :=
  ⟨openMap3_open, ⟨by decide, by decide, by decide, by decide⟩,
    ⟨by decide, by decide, by decide, by decide⟩, by decide,
    findPath_open_grid_length openMap3 (0, 0) (3, 1) openMap3_open
      ⟨by decide, by decide, by decide, by decide⟩
      ⟨by decide, by decide, by decide, by decide⟩⟩

end StarJump
